import Mathlib

/-! The program myps: the process-record parser and the sort / filter / print pipeline.

A shallow embedding of `ProcEntry.c` and `myps.c`.

* Text is `List Char`; a `Char` stands for one byte of the C program and `Char.toNat` is
  its value as `unsigned char`.
* A stat file is the list of its bytes; the file system is a function from a path to the
  contents of the file at that path, `none` when `fopen` fails.
* Every `fscanf` conversion is a function from the unread input to a `Scan` result.
* A write past the end of a fixed-size buffer, a read before its start and a number that
  does not fit the object it is scanned into are undefined behaviour in C; the embedding
  reports them as `Res.undefined` instead of inventing a result.
* `malloc` is taken to succeed.
-/

namespace MyPs

/-! ## Characters and C strings -/

/-- The terminator of a C string. -/
def NUL : Char := Char.ofNat 0

/-- The function `isspace` of `<ctype.h>` in the C locale: space, `\t`, `\n`, `\v`, `\f`, `\r`. -/
def isspace (c : Char) : Bool := c.toNat == 32 || (9 ≤ c.toNat && c.toNat ≤ 13)

/-- The function `isdigit` of `<ctype.h>`. -/
def isdigit (c : Char) : Bool := 48 ≤ c.toNat && c.toNat ≤ 57

/-- The C string held by a buffer: the bytes before the first terminator. -/
def cstr (buf : List Char) : List Char := buf.takeWhile (fun c => c != NUL)

/-- White-space directive of a scanf format (also implied by `%d`, `%s`, `%lu`, `%ld`):
skip any run of white space. -/
def skipSpace (inp : List Char) : List Char := inp.dropWhile isspace

/-! ## Decimal numbers -/

/-- Value of a run of decimal digits, most significant first. -/
def digitsVal (ds : List Char) : Nat := ds.foldl (fun acc c => acc * 10 + (c.toNat - 48)) 0

/-- The character of one decimal digit. -/
def digitChar : Nat → Char
  | 0 => '0' | 1 => '1' | 2 => '2' | 3 => '3' | 4 => '4'
  | 5 => '5' | 6 => '6' | 7 => '7' | 8 => '8' | _ => '9'

/-- Decimal digits of `n` pushed in front of `acc`; `fuel` bounds the number of digits. -/
def showNatAux : Nat → Nat → List Char → List Char
  | 0, _, acc => acc
  | fuel + 1, n, acc =>
    if n / 10 = 0 then digitChar (n % 10) :: acc
    else showNatAux fuel (n / 10) (digitChar (n % 10) :: acc)

/-- Decimal text of a natural number, as `printf("%lu")` writes it. -/
def showNat (n : Nat) : List Char := showNatAux (n + 1) n []

/-- Decimal text of an integer, as `printf("%d")` and `printf("%ld")` write it. -/
def showInt : Int → List Char
  | Int.ofNat n => showNat n
  | Int.negSucc n => '-' :: showNat (n + 1)

/-! ## Machine integers -/

def INT_MIN : Int := -2147483648
def INT_MAX : Int := 2147483647
def LONG_MIN : Int := -9223372036854775808
def LONG_MAX : Int := 9223372036854775807
def ULONG_MAX : Nat := 18446744073709551615

/-- Two's-complement reduction of an integer to a 32-bit `int`. -/
def wrapInt (x : Int) : Int := (x + 2147483648) % 4294967296 - 2147483648

/-! ## fscanf conversions -/

/-- Outcome of one `fscanf` conversion on the unread input. -/
inductive Scan (α : Type) where
  /-- the conversion assigned `v`; `rest` is the input left unread -/
  | ok (v : α) (rest : List Char)
  /-- input or matching failure: nothing assigned -/
  | fail
  /-- the C standard leaves the behaviour undefined -/
  | undefined
  deriving DecidableEq

/-- The conversion `%s` into a buffer of `cap` bytes: skip white space, then store the maximal run of
non-white-space bytes followed by a terminator. The conversion has no field width, so a
run of `cap` bytes or more is written past the end of the buffer. The value is the C
string the buffer then holds. -/
def scanStr (cap : Nat) (inp : List Char) : Scan (List Char) :=
  let s := skipSpace inp
  let tok := s.takeWhile (fun c => !isspace c)
  let rest := s.dropWhile (fun c => !isspace c)
  if tok.isEmpty then .fail
  else if cap < tok.length + 1 then .undefined
  else .ok (cstr tok) rest

/-- The directives ` %c`: skip white space, then take one byte. -/
def scanChar (inp : List Char) : Scan Char :=
  match skipSpace inp with
  | [] => .fail
  | c :: rest => .ok c rest

/-- The subject sequence of a decimal integer conversion: skip white space, an optional
sign, then the maximal run of digits, which must not be empty. Yields the sign, the
magnitude and the unread input. -/
def scanNum (inp : List Char) : Option (Bool × Nat × List Char) :=
  let s := skipSpace inp
  let signed : Bool × List Char :=
    match s with
    | '-' :: t => (true, t)
    | '+' :: t => (false, t)
    | _ => (false, s)
  let ds := signed.2.takeWhile isdigit
  if ds.isEmpty then none
  else some (signed.1, digitsVal ds, signed.2.dropWhile isdigit)

/-- The conversions `%d` (with `lo = INT_MIN`, `hi = INT_MAX`) and `%ld` (with the `long` bounds): the
behaviour is undefined when the number cannot be represented in the object. -/
def scanInt (lo hi : Int) (inp : List Char) : Scan Int :=
  match scanNum inp with
  | none => .fail
  | some (neg, m, rest) =>
    let v : Int := if neg then -(m : Int) else (m : Int)
    if lo ≤ v ∧ v ≤ hi then .ok v rest else .undefined

/-- The conversion `%lu`: a minus sign negates the value in `unsigned long` arithmetic. -/
def scanULong (inp : List Char) : Scan Nat :=
  match scanNum inp with
  | none => .fail
  | some (neg, m, rest) =>
    if m ≤ ULONG_MAX then .ok (if neg then (ULONG_MAX + 1 - m) % (ULONG_MAX + 1) else m) rest
    else .undefined

/-- A run of `n` conversions `%d` whose values all go to the scratch variable
`emptyScan`. -/
def skipInts : Nat → List Char → Scan Unit
  | 0, inp => .ok () inp
  | n + 1, inp =>
    match scanInt INT_MIN INT_MAX inp with
    | .ok _ rest => skipInts n rest
    | .fail => .fail
    | .undefined => .undefined

/-! ## ProcEntry -/

/-- Modelled from the spec: `ProcEntry.h` is not among the sources. The fields are the
ones `ProcEntry.c` reads and writes, typed by the conversions used on them: `pid` and
`ppid` are `int`, `state` is `char`, `utime` and `stime` are `unsigned long`,
`num_threads` is `long`, `comm` and `path` are C strings in 100-byte heap buffers. -/
structure ProcEntry where
  pid : Int
  ppid : Int
  comm : List Char
  state : Char
  utime : Nat
  stime : Nat
  num_threads : Int
  path : List Char
  deriving DecidableEq

/-- The constant `MAX_STR_SIZE` of both source files. -/
def MAX_STR_SIZE : Nat := 100

/-- Result of a call that returns a value, returns `NULL`, or goes wrong. -/
inductive Res (α : Type) where
  /-- the call returned `v` -/
  | ok (v : α)
  /-- the call returned `NULL` after `msg` was written to the error stream -/
  | null (msg : List Char)
  /-- undefined behaviour was reached -/
  | undefined
  /-- the step bound of the embedding ran out (never happens, see `nameLoop_fuel`) -/
  | outOfFuel
  deriving DecidableEq

/-- Sequencing: the first call that yields no value ends the function. -/
def Res.bind {α β : Type} (x : Res α) (f : α → Res β) : Res β :=
  match x with
  | .ok v => f v
  | .null msg => .null msg
  | .undefined => .undefined
  | .outOfFuel => .outOfFuel

instance : Monad Res where
  pure := Res.ok
  bind := Res.bind

/-- Turn the count check after an `fscanf` call into a result: too few values assigned
makes the caller print `msg` and return `NULL`. -/
def expect {α : Type} (msg : List Char) : Scan α → Res (α × List Char)
  | .ok v rest => .ok (v, rest)
  | .fail => .null msg
  | .undefined => .undefined

def msgNotSet : List Char := "Error: File not set\n".toList
def msgOpen : List Char := "Error: Unable to open stat file\n".toList
def msgParse : List Char := "Error: Unable to parse file values\n".toList
def msgRead (statFile : List Char) : List Char :=
  "Error: Values unsuccessfully read from ".toList ++ statFile ++ "\n".toList

/-- The `while (comm[commLastIndex] != 41)` loop of `CreateProcEntryFromFile`, lines 81-101.
`comm` is the C string in the 100-byte buffer `comm`; `commLastIndex` is its length minus
one, so an empty string makes the test read `comm[-1]`. Each round scans one more token
into the 20-byte `tempStr` and appends a space and the token with `strcat`. -/
def nameLoop (statFile : List Char) : Nat → List Char → List Char →
    Res (List Char × List Char)
  | 0, _, _ => .outOfFuel
  | fuel + 1, comm, inp =>
    match comm.getLast? with
    | none => .undefined
    | some last =>
      if last = ')' then .ok (comm, inp)
      else
        match expect (msgRead statFile) (scanStr 20 inp) with
        | .null msg => .null msg
        | .undefined => .undefined
        | .outOfFuel => .outOfFuel
        | .ok (tempStr, rest) =>
          if MAX_STR_SIZE < comm.length + 1 + tempStr.length + 1 then .undefined
          else nameLoop statFile fuel (comm ++ ' ' :: tempStr) rest

/-- The function `CreateProcEntryFromFile`, `ProcEntry.c` lines 42-179. `fs` is the file
system and `statFile` the argument, `none` for a null pointer. The two conversions of the
first `fscanf` are taken one after the other, as are the fields of every later call: a
call that assigns fewer values than its format asks for makes the function return `NULL`.
The final `strcpy` of the path into its 100-byte buffer overruns it when the path has 100
bytes or more. -/
def CreateProcEntryFromFile (fs : List Char → Option (List Char))
    (statFile : Option (List Char)) : Res ProcEntry :=
  match statFile with
  | none => .null msgNotSet
  | some path =>
    match fs path with
    | none => .null msgOpen
    | some inp => show Res ProcEntry from do
      let (pid, r) ← expect (msgRead path) (scanInt INT_MIN INT_MAX inp)
      let (comm0, r) ← expect (msgRead path) (scanStr MAX_STR_SIZE r)
      let (comm, r) ← nameLoop path (r.length + 1) comm0 r
      let (state, r) ← expect (msgRead path) (scanChar r)
      let (ppid, r) ← expect (msgRead path) (scanInt INT_MIN INT_MAX r)
      let (_, r) ← expect msgParse (skipInts 9 r)
      let (utime, r) ← expect (msgRead path) (scanULong r)
      let (stime, r) ← expect (msgRead path) (scanULong r)
      let (_, r) ← expect msgParse (skipInts 4 r)
      let (numThreads, _) ← expect (msgRead path) (scanInt LONG_MIN LONG_MAX r)
      if MAX_STR_SIZE < path.length + 1 then Res.undefined
      else Res.ok (ProcEntry.mk pid ppid comm state utime stime numThreads path)

/-! ## Printing one entry -/

/-- Right-align in a field of minimum width `w` (`%7d`, `%5c`, `%5lu`, `%7ld`, `%7s`):
pad with spaces on the left; longer text is written in full. -/
def padLeft (w : Nat) (s : List Char) : List Char := List.replicate (w - s.length) ' ' ++ s

/-- Left-align in a field of minimum width `w` (`%-25s`, `%-20s`): pad with spaces on
the right; longer text is written in full. -/
def padRight (w : Nat) (s : List Char) : List Char := s ++ List.replicate (w - s.length) ' '

/-- The six numeric columns of a row with the space that ends each:
`"%7d %7d %5c %5lu %5lu %7ld "`. -/
def numericColumns (e : ProcEntry) (utime stime : Nat) : List Char :=
  padLeft 7 (showInt e.pid) ++ ' ' :: padLeft 7 (showInt e.ppid) ++ ' ' ::
  padLeft 5 [e.state] ++ ' ' :: padLeft 5 (showNat utime) ++ ' ' ::
  padLeft 5 (showNat stime) ++ ' ' :: padLeft 7 (showInt e.num_threads) ++ [' ']

/-- The function `PrintProcEntry`, `ProcEntry.c` lines 191-203: the line written to standard output.
`hz` is the value of `sysconf(_SC_CLK_TCK)` converted to `unsigned long`, the type the
division is done in; it is positive on every system (division by zero is undefined in C). -/
def PrintProcEntry (hz : Nat) (entry : ProcEntry) : List Char :=
  let utime := entry.utime / hz
  let stime := entry.stime / hz
  numericColumns entry utime stime ++
    padRight 25 entry.comm ++ ' ' :: padRight 20 entry.path ++ ['\n']

/-! ## The comparators -/

/-- The comparator `PidSort`, `myps.c` lines 181-187: `f->pid - s->pid` in 32-bit `int` arithmetic. -/
def PidSort (f s : ProcEntry) : Int := wrapInt (f.pid - s.pid)

/-- The call `strcpy(buf, src)`: `src` and a terminator overwrite the start of `buf`. -/
def strcpy (buf src : List Char) : List Char := src ++ NUL :: buf.drop (src.length + 1)

/-- The assignment `str[i] = str[i + 1]`. -/
def shiftStep (str : List Char) (i : Nat) : List Char := str.set i (str.getD (i + 1) NUL)

/-- The loop `for (i = 0; i < strSize - 1; i++) str[i] = str[i + 1];` of `CommSort`. -/
def shiftLeft (strSize : Nat) (str : List Char) : List Char :=
  (List.range (strSize - 1)).foldl shiftStep str

/-- The function `strcmp` on two C strings: the difference of the first pair of differing bytes, taken
as `unsigned char`, where a string that has ended counts as the terminator 0. -/
def strcmp : List Char → List Char → Int
  | [], [] => 0
  | [], b :: _ => 0 - (b.toNat : Int)
  | a :: _, [] => (a.toNat : Int)
  | a :: as, b :: bs => if a = b then strcmp as bs else (a.toNat : Int) - (b.toNat : Int)

/-- The comparator `CommSort`, `myps.c` lines 189-229. `junk1` and `junk2` are the contents the
100-byte arrays `str1` and `str2` have before `strcpy` fills them. -/
def CommSort (junk1 junk2 : List Char) (f s : ProcEntry) : Int :=
  let str1 := strcpy junk1 f.comm
  let str2 := strcpy junk2 s.comm
  let strSize := MAX_STR_SIZE
  let str1 := if str1.getD 1 NUL = '(' then shiftLeft strSize str1 else str1
  let str2 := if str2.getD 1 NUL = '(' then shiftLeft strSize str2 else str2
  strcmp (cstr str1) (cstr str2)

/-! ## qsort -/

/-- Put `x` in front of the first element it does not compare greater than. -/
def insertSorted {α : Type} (compar : α → α → Int) (x : α) : List α → List α
  | [] => [x]
  | y :: ys => if compar x y ≤ 0 then x :: y :: ys else y :: insertSorted compar x ys

/-- The function `qsort` of the C library, which is not part of the repository: a comparison sort that
looks only at the sign of `compar`. An insertion sort stands for it. -/
def qsort {α : Type} (compar : α → α → Int) (base : List α) : List α :=
  base.foldr (insertSorted compar) []

/-! ## The reporter -/

/-- What a call wrote: the lines sent to standard output and to the error stream. -/
structure Output where
  out : List (List Char)
  err : List (List Char)
  deriving DecidableEq

def msgNothing : List Char := "Error: Attempted to print nothing.\n".toList

/-- The header line of `PrintProcs`: `"%7s %7s %5s %5s %5s %7s %-25s %-20s\n"`. -/
def header : List Char :=
  padLeft 7 "PID".toList ++ ' ' :: padLeft 7 "PPID".toList ++ ' ' ::
  padLeft 5 "STATE".toList ++ ' ' :: padLeft 5 "UTIME".toList ++ ' ' ::
  padLeft 5 "STIME".toList ++ ' ' :: padLeft 7 "THREADS".toList ++ ' ' ::
  padRight 25 "CMD".toList ++ ' ' :: padRight 20 "STAT_FILE".toList ++ ['\n']

/-- The `for` loop of `PrintProcs`, lines 241-246: `n` rounds are left, `i` is the index,
`out` what standard output holds so far. Reading `procs[i]` outside the array is
undefined. -/
def printLoop (hz : Nat) (procs : List ProcEntry) (zFlag : Int) :
    Nat → Nat → List (List Char) → Res (List (List Char))
  | 0, _, out => .ok out
  | n + 1, i, out =>
    match procs.get? i with
    | none => .undefined
    | some p =>
      if zFlag ≠ 0 ∧ p.state ≠ 'Z' then printLoop hz procs zFlag n (i + 1) out
      else printLoop hz procs zFlag n (i + 1) (out ++ [PrintProcEntry hz p])

/-- The function `PrintProcs`, `myps.c` lines 231-247; `procs` is `none` for a null pointer. -/
def PrintProcs (hz : Nat) (procs : Option (List ProcEntry)) (count : Int) (zFlag : Int) :
    Res Output :=
  match procs with
  | none => .ok ⟨[], [msgNothing]⟩
  | some ps =>
    if count ≤ 0 then .ok ⟨[], [msgNothing]⟩
    else
      match printLoop hz ps zFlag count.toNat 0 [header] with
      | .ok out => .ok ⟨out, []⟩
      | .null msg => .null msg
      | .undefined => .undefined
      | .outOfFuel => .outOfFuel

/-! ## main -/

/-- One directory entry as `scandir` hands it to `DirFilter`. -/
structure Dirent where
  /-- `d_type == DT_DIR` -/
  isDir : Bool
  d_name : List Char
  deriving DecidableEq

/-- The function `DirFilter`, `myps.c` lines 165-172. -/
def DirFilter (current : Dirent) : Bool :=
  current.isDir && (match current.d_name with | [] => false | c :: _ => isdigit c)

/-- One option as `getopt(argc, argv, "d:pczh")` returns it. -/
inductive Opt where
  | d (optarg : List Char)
  | p
  | c
  | z
  | h
  | unknown
  deriving DecidableEq

/-- The comparator `sortFunctionPtr` points to. -/
inductive SortFn where
  | pidSort
  | commSort
  deriving DecidableEq

/-- The local variables of `main` that the option loop sets, and what it wrote to the
error stream. -/
structure Config where
  dirPath : List Char
  sortFunctionPtr : SortFn
  zombieFlag : Int
  err : List (List Char)
  deriving DecidableEq

def usageLine : List Char := "Usage: ./myps [-d <path>] [-p] [-c] [-z] [-h]\n".toList

def helpText : List (List Char) :=
  [usageLine,
   "\t-d <path> Directory containing proc entries (default: /proc)\n".toList,
   "\t-p        Display proc entries sorted by pid (default)\n".toList,
   "\t-c        Display proc entries sorted by command lexicographically\n".toList,
   "\t-z        Display ONLY proc entries in the zombie state\n".toList,
   "\t-h        Display this help message\n".toList]

def MAX_DIR_LEN : Nat := 4096

/-- The option loop of `main`, lines 86-113. `Sum.inl` is the `return 0` of `-h` with the
error-stream text so far. `strncpy(dirPath, optarg, MAX_DIR_LEN)` leaves `dirPath`
without a terminator when `optarg` has `MAX_DIR_LEN` bytes or more; reading it later is
undefined, which `pipeline` reports. -/
def getoptLoop : List Opt → Config → Sum (List (List Char)) Config
  | [], cfg => .inr cfg
  | .d optarg :: rest, cfg => getoptLoop rest { cfg with dirPath := optarg }
  | .p :: rest, cfg => getoptLoop rest cfg
  | .c :: rest, cfg => getoptLoop rest { cfg with sortFunctionPtr := .commSort }
  | .z :: rest, cfg => getoptLoop rest { cfg with zombieFlag := 1 }
  | .h :: _, cfg => .inl (cfg.err ++ helpText)
  | .unknown :: rest, cfg => getoptLoop rest { cfg with err := cfg.err ++ [usageLine] }

/-- The path assembled in the 4096-byte `statFile` at lines 132-136. -/
def statPath (dirPath d_name : List Char) : Res (List Char) :=
  let statFile := dirPath ++ '/' :: d_name ++ "/stat".toList
  if MAX_DIR_LEN < statFile.length + 1 then .undefined else .ok statFile

/-- What the program is run in: the file system, the directory listing (`none` when
`scandir` fails), the clock-tick rate and the prior contents of the two stack arrays of
`CommSort`. -/
structure Env where
  fs : List Char → Option (List Char)
  readdir : List Char → Option (List Dirent)
  hz : Nat
  junk1 : List Char
  junk2 : List Char

/-- The loop at lines 131-144: parse the stat file of each directory in turn; the first
`NULL` ends it. -/
def collect (env : Env) (dirPath : List Char) : List Dirent → Res (List ProcEntry)
  | [] => .ok []
  | dirent :: rest => do
    let statFile ← statPath dirPath dirent.d_name
    let tempProcPtr ← CreateProcEntryFromFile env.fs (some statFile)
    let myProcs ← collect env dirPath rest
    Res.ok (tempProcPtr :: myProcs)

/-- How a run ends: the exit status and everything written. -/
structure Exit where
  status : Int
  out : List (List Char)
  err : List (List Char)
  deriving DecidableEq

def msgScan : List Char := "Error: Unable to scan directory\n".toList
def msgGather : List Char := "Error: Could not gather data from all the files\n".toList

/-- The function a `SortFn` stands for. -/
def comparator (env : Env) : SortFn → ProcEntry → ProcEntry → Int
  | .pidSort => PidSort
  | .commSort => CommSort env.junk1 env.junk2

/-- Lines 115-162 of `main`: list the directory, build the entries, sort, print. A
`dirPath` that `strncpy` left without terminator is read past its end by `scandir`. -/
def pipeline (env : Env) (cfg : Config) : Res Exit :=
  if MAX_DIR_LEN ≤ cfg.dirPath.length then .undefined
  else
  match env.readdir cfg.dirPath with
  | none => .ok ⟨1, [], cfg.err ++ [msgScan]⟩
  | some listing =>
    let dirObjects := listing.filter DirFilter
    match collect env cfg.dirPath dirObjects with
    | .null msg => .ok ⟨1, [], cfg.err ++ [msg, msgGather]⟩
    | .undefined => .undefined
    | .outOfFuel => .outOfFuel
    | .ok myProcs =>
      let sorted := qsort (comparator env cfg.sortFunctionPtr) myProcs
      match PrintProcs env.hz (some sorted) sorted.length cfg.zombieFlag with
      | .ok o => .ok ⟨0, o.out, cfg.err ++ o.err⟩
      | .null msg => .null msg
      | .undefined => .undefined
      | .outOfFuel => .outOfFuel

/-- The locals of `main` as lines 75-78 initialise them. -/
def initialConfig : Config := ⟨"/proc".toList, .pidSort, 0, []⟩

/-- The function `main`, `myps.c` lines 73-163, on the options `getopt` yields. -/
def main (env : Env) (opts : List Opt) : Res Exit :=
  match getoptLoop opts initialConfig with
  | .inl err => .ok ⟨0, [], err⟩
  | .inr cfg => pipeline env cfg

/-! ## Records as sequences of tokens -/

/-- Put the non-white-space character `c` in front of the tokens `ts` of `cs`: it extends
the first token when that token starts right at the head of `cs`, and is a token of its
own otherwise. -/
def pushChar (c : Char) (cs : List Char) (ts : List (List Char)) : List (List Char) :=
  match cs, ts with
  | d :: _, t :: ts' => if isspace d then [c] :: t :: ts' else (c :: t) :: ts'
  | _, ts => [c] :: ts

/-- The white-space-separated tokens of a text, in order. -/
def tokens : List Char → List (List Char)
  | [] => []
  | c :: cs => if isspace c then tokens cs else pushChar c cs (tokens cs)

/-- The unread input `rest` begins a new token: it is empty or starts with white space. -/
def Boundary (rest : List Char) : Prop := ∀ c, rest.head? = some c → isspace c = true

/-- The text ends with the closing marker `)`. -/
def endsClose (t : List Char) : Bool := t.getLast? == some ')'

/-- Of the pieces of a name, the last one and no other ends with `)`. -/
def onlyLastCloses : List (List Char) → Bool
  | [] => false
  | [t] => endsClose t
  | t :: u :: rest => !endsClose t && onlyLastCloses (u :: rest)

/-- No piece of a name ends with `)`. -/
def noneCloses (pieces : List (List Char)) : Bool := pieces.all (fun t => !endsClose t)

/-- The name `comm` followed by each further piece behind one space. -/
def joinSp (comm : List Char) (pieces : List (List Char)) : List Char :=
  pieces.foldl (fun acc t => acc ++ ' ' :: t) comm

/-- The fields of a stat record up to `threadCount`, as values. The name is given by its
white-space-separated pieces. -/
structure Record where
  id : Int
  name : List (List Char)
  state : Char
  parentId : Int
  skipped9 : List Int
  userTimeTicks : Nat
  systemTimeTicks : Nat
  skipped4 : List Int
  threadCount : Int

/-- The tokens of a record in field order, every number in decimal. -/
def Record.fields (r : Record) : List (List Char) :=
  showInt r.id :: r.name ++ [r.state] :: showInt r.parentId :: r.skipped9.map showInt ++
    showNat r.userTimeTicks :: showNat r.systemTimeTicks :: r.skipped4.map showInt ++
    [showInt r.threadCount]

/-- Every number of the record fits its C type and the two skipped groups have nine and
four fields. -/
def Record.NumbersFit (r : Record) : Prop :=
  (INT_MIN ≤ r.id ∧ r.id ≤ INT_MAX) ∧ (INT_MIN ≤ r.parentId ∧ r.parentId ≤ INT_MAX) ∧
  r.skipped9.length = 9 ∧ (∀ v ∈ r.skipped9, INT_MIN ≤ v ∧ v ≤ INT_MAX) ∧
  r.userTimeTicks ≤ ULONG_MAX ∧ r.systemTimeTicks ≤ ULONG_MAX ∧
  r.skipped4.length = 4 ∧ (∀ v ∈ r.skipped4, INT_MIN ≤ v ∧ v ≤ INT_MAX) ∧
  (LONG_MIN ≤ r.threadCount ∧ r.threadCount ≤ LONG_MAX)

instance (r : Record) : Decidable r.NumbersFit := by
  unfold Record.NumbersFit
  infer_instance

/-- The pieces of a name are text the parser can hold: no piece contains a terminator
byte, the first fits the 100-byte `comm`, every later one fits the 20-byte `tempStr`, and
the pieces joined by single spaces fit `comm`. -/
def NameFits : List (List Char) → Prop
  | [] => False
  | t :: more =>
    (∀ c ∈ t, c ≠ NUL) ∧ (∀ u ∈ more, u.length ≤ 19 ∧ ∀ c ∈ u, c ≠ NUL) ∧
    (joinSp t more).length ≤ 99

instance (name : List (List Char)) : Decidable (NameFits name) := by
  unfold NameFits
  split <;> infer_instance

/-- The name as `CommSort` compares it, in the words of the specification: without its
first byte when its second byte is `(`, unchanged otherwise. -/
def normName (name : List Char) : List Char :=
  if name.get? 1 = some '(' then name.drop 1 else name

/-- Byte-wise lexicographic order of two texts, bytes compared as `unsigned char`. -/
def LexLt (a b : List Char) : Prop := List.Lex (fun x y : Char => x.toNat < y.toNat) a b

/-- An entry with the given id and name, the other fields fixed. -/
def entryNamed (pid : Int) (comm : List Char) : ProcEntry :=
  { pid := pid, ppid := 1, comm := comm, state := 'S', utime := 0, stime := 0,
    num_threads := 1, path := "/proc/1/stat".toList }

/-- A stat record with the given id and name, the other fields fixed. -/
def statLine (pid name : List Char) : List Char :=
  pid ++ ' ' :: name ++ " S 1 0 0 0 0 0 0 0 0 0 0 0 0 0 0 0 1 0 0\n".toList

/-- The test of the loop of `PrintProcs` negated: the entry gets a row. -/
def printed (zFlag : Int) (p : ProcEntry) : Bool := !(decide (zFlag ≠ 0) && decide (p.state ≠ 'Z'))

/-- A small world to run `main` in: the listed directories all exist, `files` maps paths
to contents, the clock ticks 100 times a second. -/
def demoEnv (files : List (List Char × List Char)) (listing : List Dirent) : Env :=
  { fs := fun path => files.lookup path
    readdir := fun _ => some listing
    hz := 100
    junk1 := List.replicate 100 'x'
    junk2 := List.replicate 100 'y' }

/-- Every field of the entry fits the column `PrintProcEntry` gives it: the three
integers have at most 7 characters, the two times in seconds at most 5 digits, the name
at most 25 and the path at most 20 characters. -/
def FitsColumns (hz : Nat) (e : ProcEntry) : Prop :=
  (-999999 ≤ e.pid ∧ e.pid ≤ 9999999) ∧ (-999999 ≤ e.ppid ∧ e.ppid ≤ 9999999) ∧
  e.utime / hz ≤ 99999 ∧ e.stime / hz ≤ 99999 ∧
  (-999999 ≤ e.num_threads ∧ e.num_threads ≤ 9999999) ∧
  e.comm.length ≤ 25 ∧ e.path.length ≤ 20

instance (hz : Nat) (e : ProcEntry) : Decidable (FitsColumns hz e) := by
  unfold FitsColumns
  infer_instance

/-- The numeric fields of the entry fit the columns `PrintProcEntry` gives them: the three
integers have at most 7 characters and the two times in seconds at most 5 digits.
Nothing is asked of the name and the path. -/
def NumericFieldsFit (hz : Nat) (e : ProcEntry) : Prop :=
  (-999999 ≤ e.pid ∧ e.pid ≤ 9999999) ∧ (-999999 ≤ e.ppid ∧ e.ppid ≤ 9999999) ∧
  e.utime / hz ≤ 99999 ∧ e.stime / hz ≤ 99999 ∧
  (-999999 ≤ e.num_threads ∧ e.num_threads ≤ 9999999)

instance (hz : Nat) (e : ProcEntry) : Decidable (NumericFieldsFit hz e) := by
  unfold NumericFieldsFit
  infer_instance

/-- A line of the table: six cells right-aligned in 7, 7, 5, 5, 5 and 7 columns, two cells
left-aligned and padded to 25 and 20 columns, one space between columns, a newline. -/
def layoutRow (c1 c2 c3 c4 c5 c6 c7 c8 : List Char) : List Char :=
  padLeft 7 c1 ++ [' '] ++ padLeft 7 c2 ++ [' '] ++ padLeft 5 c3 ++ [' '] ++
  padLeft 5 c4 ++ [' '] ++ padLeft 5 c5 ++ [' '] ++ padLeft 7 c6 ++ [' '] ++
  padRight 25 c7 ++ [' '] ++ padRight 20 c8 ++ ['\n']

/-- Three stat files with the ids 50, 3 and 200, listed in that order. -/
def envIds : Env :=
  demoEnv [("/proc/50/stat".toList, statLine "50".toList "(a)".toList),
           ("/proc/3/stat".toList, statLine "3".toList "(b)".toList),
           ("/proc/200/stat".toList, statLine "200".toList "(c)".toList)]
    [⟨true, "50".toList⟩, ⟨true, "3".toList⟩, ⟨true, "200".toList⟩]

/-- Three stat files with the names `(bash)`, `(Zsh)` and `((weird))`, listed in that
order. -/
def envNames : Env :=
  demoEnv [("/proc/1/stat".toList, statLine "1".toList "(bash)".toList),
           ("/proc/2/stat".toList, statLine "2".toList "(Zsh)".toList),
           ("/proc/3/stat".toList, statLine "3".toList "((weird))".toList)]
    [⟨true, "1".toList⟩, ⟨true, "2".toList⟩, ⟨true, "3".toList⟩]

/-- No piece of the name that is followed by a space ends with `)`: wherever the name
is split at a space, the part before the space does not end with `)`. -/
def NoClosedPiece (comm : List Char) : Prop :=
  ∀ pre suf : List Char, comm = pre ++ ' ' :: suf → endsClose pre = false

/-- A stat record whose name field holds a piece ending with `)` before its end: the
process is named `x y) T 5 0 0 0 0 0 0 0 0 0 7 8 0 0 0 0 3 z`. -/
def injectedLine : List Char :=
  statLine "42".toList "(x y) T 5 0 0 0 0 0 0 0 0 0 7 8 0 0 0 0 3 z)".toList

/-- The entry parsed from `injectedLine`. -/
def injectedEntry : ProcEntry :=
  { pid := 42, ppid := 5, comm := "(x y)".toList, state := 'T', utime := 7, stime := 8,
    num_threads := 3, path := "/proc/42/stat".toList }

/-- A stat record that ends with its `threadCount` token. -/
def shortLine : List Char :=
  "42 (bash) S 1 42 42 0 -1 4194304 100 0 0 0 1234 567 0 0 20 0 3".toList

/-- The entry parsed from `shortLine`. -/
def shortEntry : ProcEntry :=
  { pid := 42, ppid := 1, comm := "(bash)".toList, state := 'S', utime := 1234,
    stime := 567, num_threads := 3, path := "/proc/42/stat".toList }

/-- The memory `CommSort` works on: the two entries its arguments point to, which it
reads, and its two local 100-byte arrays. -/
structure CommSortMem where
  f : ProcEntry
  s : ProcEntry
  str1 : List Char
  str2 : List Char

/-- The array `CommSort` compares after `strcpy` and the conditional shift. -/
def workingCopy (junk name : List Char) : List Char :=
  if (strcpy junk name).getD 1 NUL = '(' then shiftLeft MAX_STR_SIZE (strcpy junk name)
  else strcpy junk name

/-- The statement `strcpy(str1, f->comm);`. -/
def CommSortMem.copyFirst (m : CommSortMem) : CommSortMem :=
  { m with str1 := strcpy m.str1 m.f.comm }

/-- The statement `strcpy(str2, s->comm);`. -/
def CommSortMem.copySecond (m : CommSortMem) : CommSortMem :=
  { m with str2 := strcpy m.str2 m.s.comm }

/-- The statement `if (str1[1] == '(') { for (...) str1[i] = str1[i + 1]; }`. -/
def CommSortMem.shiftFirst (m : CommSortMem) : CommSortMem :=
  if m.str1.getD 1 NUL = '(' then { m with str1 := shiftLeft MAX_STR_SIZE m.str1 } else m

/-- The statement `if (str2[1] == '(') { for (...) str2[i] = str2[i + 1]; }`. -/
def CommSortMem.shiftSecond (m : CommSortMem) : CommSortMem :=
  if m.str2.getD 1 NUL = '(' then { m with str2 := shiftLeft MAX_STR_SIZE m.str2 } else m

/-- The memory when `CommSort` returns: the four statements in the order of the source. -/
def CommSortMem.final (m : CommSortMem) : CommSortMem :=
  m.copyFirst.copySecond.shiftFirst.shiftSecond

/-- The body of `CommSort`, `myps.c` lines 189-229, statement by statement on the memory
it works on, with the value it returns. Every assignment of the source has `str1` or
`str2` as its target; `strcpy` of a name of 100 bytes or more overruns the array. -/
def CommSortRun (m : CommSortMem) : Res (Int × CommSortMem) :=
  if MAX_STR_SIZE < m.f.comm.length + 1 ∨ MAX_STR_SIZE < m.s.comm.length + 1 then .undefined
  else .ok (strcmp (cstr m.final.str1) (cstr m.final.str2), m.final)

/-! ## Lexical lemmas -/

theorem boundary_nil : Boundary [] := by
  intro c h
  simp at h

theorem boundary_cons {c : Char} {cs : List Char} (h : isspace c = true) :
    Boundary (c :: cs) := by
  intro d hd
  simp at hd
  subst hd
  exact h

theorem skipSpace_cons_space {c : Char} {cs : List Char} (h : isspace c = true) :
    skipSpace (c :: cs) = skipSpace cs := by
  simp [skipSpace, List.dropWhile, h]

theorem skipSpace_cons_nonspace {c : Char} {cs : List Char} (h : isspace c = false) :
    skipSpace (c :: cs) = c :: cs := by
  simp [skipSpace, List.dropWhile, h]

theorem tokens_cons_space {c : Char} {cs : List Char} (h : isspace c = true) :
    tokens (c :: cs) = tokens cs := by
  simp [tokens, h]

/-- The first token of a text is what follows its leading white space, up to the next
white space. -/
theorem tokens_skipSpace (inp : List Char) :
    (tokens inp = [] → skipSpace inp = []) ∧
    (∀ t ts, tokens inp = t :: ts →
      ∃ rest, skipSpace inp = t ++ rest ∧ t ≠ [] ∧ (∀ c ∈ t, isspace c = false) ∧
        Boundary rest ∧ tokens rest = ts ∧ rest.length < inp.length) := by
  induction inp with
  | nil => simp [tokens, skipSpace]
  | cons c cs ih =>
    by_cases hc : isspace c = true
    · rw [tokens_cons_space hc, skipSpace_cons_space hc]
      refine ⟨ih.1, ?_⟩
      intro t ts h
      obtain ⟨rest, h1, h2, h3, h4, h5, h6⟩ := ih.2 t ts h
      exact ⟨rest, h1, h2, h3, h4, h5, by simp; omega⟩
    · have hc' : isspace c = false := by simpa using hc
      rw [skipSpace_cons_nonspace hc']
      have htk : tokens (c :: cs) = pushChar c cs (tokens cs) := by simp [tokens, hc']
      rw [htk]
      cases cs with
      | nil =>
        simp only [tokens, pushChar]
        refine ⟨by simp, ?_⟩
        intro t ts e
        simp only [List.cons.injEq] at e
        obtain ⟨e1, e2⟩ := e
        subst e1 e2
        exact ⟨[], by simp, by simp, by simpa using hc', boundary_nil, by simp [tokens],
          by simp⟩
      | cons d ds =>
        by_cases hd : isspace d = true
        · have ht : pushChar c (d :: ds) (tokens (d :: ds)) = [c] :: tokens (d :: ds) := by
            cases tokens (d :: ds) <;> simp [pushChar, hd]
          rw [ht]
          refine ⟨by simp, ?_⟩
          intro t ts e
          simp only [List.cons.injEq] at e
          obtain ⟨e1, e2⟩ := e
          subst e1
          exact ⟨d :: ds, by simp, by simp, by simpa using hc', boundary_cons hd, e2,
            by simp⟩
        · have hd' : isspace d = false := by simpa using hd
          rw [skipSpace_cons_nonspace hd'] at ih
          cases hts : tokens (d :: ds) with
          | nil => simpa using ih.1 hts
          | cons t' ts' =>
            obtain ⟨rest, h1, h2, h3, h4, h5, h6⟩ := ih.2 t' ts' hts
            have ht : pushChar c (d :: ds) (t' :: ts') = (c :: t') :: ts' := by
              simp [pushChar, hd']
            rw [ht]
            refine ⟨by simp, ?_⟩
            intro t ts e
            simp only [List.cons.injEq] at e
            obtain ⟨e1, e2⟩ := e
            subst e1 e2
            refine ⟨rest, by simp [h1], by simp, ?_, h4, h5, by simp at h6 ⊢; omega⟩
            intro x hx
            simp only [List.mem_cons] at hx
            rcases hx with rfl | hx
            · exact hc'
            · exact h3 x hx

theorem takeWhile_append_stop {p : Char → Bool} {t r : List Char}
    (ht : ∀ c ∈ t, p c = true) (hr : ∀ c, r.head? = some c → p c = false) :
    (t ++ r).takeWhile p = t ∧ (t ++ r).dropWhile p = r := by
  induction t with
  | nil =>
    cases r with
    | nil => simp
    | cons c cs =>
      have := hr c (by simp)
      simp [List.takeWhile, List.dropWhile, this]
  | cons a as ih =>
    have ha : p a = true := ht a (by simp)
    have ih' := ih (fun c hc => ht c (by simp [hc]))
    simp [List.takeWhile, List.dropWhile, ha, ih'.1, ih'.2]

theorem isdigit_of_isspace {c : Char} (h : isspace c = true) : isdigit c = false := by
  simp only [isspace, isdigit, Bool.or_eq_true, beq_iff_eq, Bool.and_eq_true,
    decide_eq_true_eq, Bool.and_eq_false_iff, decide_eq_false_iff_not] at *
  omega

theorem isspace_of_isdigit {c : Char} (h : isdigit c = true) : isspace c = false := by
  cases hs : isspace c with
  | false => rfl
  | true => rw [isdigit_of_isspace hs] at h; exact absurd h (by simp)

theorem cstr_of_no_NUL {t : List Char} (h : ∀ c ∈ t, c ≠ NUL) : cstr t = t := by
  unfold cstr
  rw [List.takeWhile_eq_self_iff]
  intro c hc
  simpa using h c hc

/-- The conversion `%s` on a text reads its first token; with no token left it fails. -/
theorem scanStr_nil (cap : Nat) {inp : List Char} (h : tokens inp = []) :
    scanStr cap inp = .fail := by
  simp [scanStr, (tokens_skipSpace inp).1 h]

theorem scanStr_tokens (cap : Nat) {inp t : List Char} {ts : List (List Char)}
    (h : tokens inp = t :: ts) :
    ∃ rest, scanStr cap inp = (if cap < t.length + 1 then .undefined else .ok (cstr t) rest) ∧
      tokens rest = ts ∧ rest.length < inp.length ∧ Boundary rest := by
  obtain ⟨rest, h1, h2, h3, h4, h5, h6⟩ := (tokens_skipSpace inp).2 t ts h
  have hsplit := takeWhile_append_stop (p := fun c => !isspace c) (t := t) (r := rest)
    (fun c hc => by simp [h3 c hc]) (fun c hc => by simp [h4 c hc])
  refine ⟨rest, ?_, h5, h6, h4⟩
  simp only [scanStr, h1, hsplit.1, hsplit.2]
  simp [h2]

theorem scanChar_nil {inp : List Char} (h : tokens inp = []) : scanChar inp = .fail := by
  simp [scanChar, (tokens_skipSpace inp).1 h]

theorem scanChar_tokens {inp : List Char} {c : Char} {ts : List (List Char)}
    (h : tokens inp = [c] :: ts) :
    ∃ rest, scanChar inp = .ok c rest ∧ tokens rest = ts ∧ rest.length < inp.length := by
  obtain ⟨rest, h1, _, _, _, h5, h6⟩ := (tokens_skipSpace inp).2 [c] ts h
  exact ⟨rest, by simp [scanChar, h1], h5, h6⟩

/-! ## Decimal text read back -/

theorem digitChar_toNat {d : Nat} (h : d < 10) : (digitChar d).toNat = 48 + d := by
  interval_cases d <;> rfl

theorem isdigit_digitChar {d : Nat} (h : d < 10) : isdigit (digitChar d) = true := by
  interval_cases d <;> rfl

theorem digitsVal_append_digit (ds : List Char) (c : Char) :
    digitsVal (ds ++ [c]) = digitsVal ds * 10 + (c.toNat - 48) := by
  simp [digitsVal, List.foldl_append]

theorem showNatAux_spec (fuel : Nat) : ∀ (n : Nat) (acc : List Char), n < fuel →
    ∃ ds, showNatAux fuel n acc = ds ++ acc ∧ ds ≠ [] ∧ (∀ c ∈ ds, isdigit c = true) ∧
      digitsVal ds = n := by
  induction fuel with
  | zero => intro n acc h; omega
  | succ fuel ih =>
    intro n acc h
    have hd : n % 10 < 10 := Nat.mod_lt _ (by norm_num)
    by_cases hz : n / 10 = 0
    · refine ⟨[digitChar (n % 10)], by simp [showNatAux, hz], by simp, ?_, ?_⟩
      · intro c hc
        simp only [List.mem_singleton] at hc
        subst hc
        exact isdigit_digitChar hd
      · simp [digitsVal, digitChar_toNat hd]
        omega
    · obtain ⟨ds, h1, h2, h3, h4⟩ := ih (n / 10) (digitChar (n % 10) :: acc) (by omega)
      refine ⟨ds ++ [digitChar (n % 10)], by simp [showNatAux, hz, h1], by simp, ?_, ?_⟩
      · intro c hc
        simp only [List.mem_append, List.mem_singleton] at hc
        rcases hc with hc | rfl
        · exact h3 c hc
        · exact isdigit_digitChar hd
      · rw [digitsVal_append_digit, h4, digitChar_toNat hd]
        omega

/-- The decimal text of `n` is a non-empty run of digits whose value is `n`. -/
theorem showNat_spec (n : Nat) :
    showNat n ≠ [] ∧ (∀ c ∈ showNat n, isdigit c = true) ∧ digitsVal (showNat n) = n := by
  obtain ⟨ds, h1, h2, h3, h4⟩ := showNatAux_spec (n + 1) n [] (by omega)
  simp only [List.append_nil] at h1
  simp only [showNat, h1]
  exact ⟨h2, h3, h4⟩

theorem scanNum_nil {inp : List Char} (h : tokens inp = []) : scanNum inp = none := by
  simp [scanNum, (tokens_skipSpace inp).1 h]

theorem isdigit_not_sign {c : Char} (h : isdigit c = true) : c ≠ '-' ∧ c ≠ '+' := by
  constructor <;> (rintro rfl; revert h; decide)

theorem scanNum_digits {ds rest : List Char}
    (h2 : ∀ c ∈ ds, isdigit c = true) (h3 : Boundary rest) :
    (ds ++ rest).takeWhile isdigit = ds ∧ (ds ++ rest).dropWhile isdigit = rest :=
  takeWhile_append_stop h2 (fun c hc => isdigit_of_isspace (h3 c hc))

theorem scanNum_showNat {inp : List Char} {n : Nat} {ts : List (List Char)}
    (h : tokens inp = showNat n :: ts) :
    ∃ rest, scanNum inp = some (false, n, rest) ∧ tokens rest = ts ∧
      rest.length < inp.length := by
  obtain ⟨rest, h1, _, _, h4, h5, h6⟩ := (tokens_skipSpace inp).2 _ ts h
  obtain ⟨hne, hdig, hval⟩ := showNat_spec n
  have hsplit := scanNum_digits hdig h4
  refine ⟨rest, ?_, h5, h6⟩
  obtain ⟨d, ds, hd⟩ := List.exists_cons_of_ne_nil hne
  have hsign := isdigit_not_sign (hdig d (by simp [hd]))
  have hs : (match skipSpace inp with
      | '-' :: t => (true, t)
      | '+' :: t => (false, t)
      | _ => (false, skipSpace inp)) = (false, showNat n ++ rest) := by
    rw [h1, hd]
    simp only [List.cons_append]
    split
    · rename_i heq; simp only [List.cons.injEq] at heq; exact absurd heq.1 hsign.1
    · rename_i heq; simp only [List.cons.injEq] at heq; exact absurd heq.1 hsign.2
    · rfl
  simp only [scanNum, hs, hsplit.1, hsplit.2, hval]
  simp [hne]

theorem scanNum_minus {inp : List Char} {n : Nat} {ts : List (List Char)}
    (h : tokens inp = ('-' :: showNat n) :: ts) :
    ∃ rest, scanNum inp = some (true, n, rest) ∧ tokens rest = ts ∧
      rest.length < inp.length := by
  obtain ⟨rest, h1, _, _, h4, h5, h6⟩ := (tokens_skipSpace inp).2 _ ts h
  obtain ⟨hne, hdig, hval⟩ := showNat_spec n
  have hsplit := scanNum_digits hdig h4
  refine ⟨rest, ?_, h5, h6⟩
  simp only [scanNum, h1, List.cons_append, hsplit.1, hsplit.2, hval]
  simp [hne]

/-- The conversions `%d` and `%ld` read back the decimal text of an integer that fits. -/
theorem scanInt_tokens (lo hi : Int) {inp : List Char} {v : Int} {ts : List (List Char)}
    (h : tokens inp = showInt v :: ts) (hlo : lo ≤ v) (hhi : v ≤ hi) :
    ∃ rest, scanInt lo hi inp = .ok v rest ∧ tokens rest = ts ∧
      rest.length < inp.length := by
  cases v with
  | ofNat n =>
    obtain ⟨rest, h1, h2, h3⟩ := scanNum_showNat (n := n) h
    refine ⟨rest, ?_, h2, h3⟩
    have hlo' : lo ≤ (n : Int) := hlo
    have hhi' : (n : Int) ≤ hi := hhi
    simp [scanInt, h1, hlo', hhi']
  | negSucc n =>
    obtain ⟨rest, h1, h2, h3⟩ := scanNum_minus (n := n + 1) h
    refine ⟨rest, ?_, h2, h3⟩
    have e : -((n + 1 : Nat) : Int) = Int.negSucc n := rfl
    simp only [scanInt, h1, if_true, e]
    simp [hlo, hhi]

theorem scanInt_nil (lo hi : Int) {inp : List Char} (h : tokens inp = []) :
    scanInt lo hi inp = .fail := by
  simp [scanInt, scanNum_nil h]

/-- The conversion `%lu` reads back the decimal text of a number that fits `unsigned long`. -/
theorem scanULong_tokens {inp : List Char} {n : Nat} {ts : List (List Char)}
    (h : tokens inp = showNat n :: ts) (hn : n ≤ ULONG_MAX) :
    ∃ rest, scanULong inp = .ok n rest ∧ tokens rest = ts ∧ rest.length < inp.length := by
  obtain ⟨rest, h1, h2, h3⟩ := scanNum_showNat h
  exact ⟨rest, by simp [scanULong, h1, hn], h2, h3⟩

theorem scanULong_nil {inp : List Char} (h : tokens inp = []) : scanULong inp = .fail := by
  simp [scanULong, scanNum_nil h]

/-- A run of `%d` conversions consumes as many integer tokens. -/
theorem skipInts_tokens (vs : List Int) : ∀ (inp : List Char) (ts : List (List Char)),
    tokens inp = vs.map showInt ++ ts → (∀ v ∈ vs, INT_MIN ≤ v ∧ v ≤ INT_MAX) →
    ∃ rest, skipInts vs.length inp = .ok () rest ∧ tokens rest = ts ∧
      rest.length ≤ inp.length := by
  induction vs with
  | nil => intro inp ts h _; exact ⟨inp, rfl, by simpa using h, le_refl _⟩
  | cons v vs ih =>
    intro inp ts h hr
    obtain ⟨r1, h1, h2, h3⟩ := scanInt_tokens INT_MIN INT_MAX
      (by simpa using h) (hr v (by simp)).1 (hr v (by simp)).2
    obtain ⟨rest, h4, h5, h6⟩ := ih r1 ts h2 (fun x hx => hr x (by simp [hx]))
    exact ⟨rest, by simp [skipInts, h1, h4], h5, by omega⟩

/-- A run of `%d` conversions fails when the tokens run out first. -/
theorem skipInts_short (vs : List Int) : ∀ (k : Nat) (inp : List Char),
    tokens inp = vs.map showInt → (∀ v ∈ vs, INT_MIN ≤ v ∧ v ≤ INT_MAX) → vs.length < k →
    skipInts k inp = .fail := by
  induction vs with
  | nil =>
    intro k inp h _ hk
    obtain ⟨k, rfl⟩ : ∃ j, k = j + 1 := ⟨k - 1, by simp at hk; omega⟩
    simp [skipInts, scanInt_nil INT_MIN INT_MAX (show tokens inp = [] by simpa using h)]
  | cons v vs ih =>
    intro k inp h hr hk
    obtain ⟨k, rfl⟩ : ∃ j, k = j + 1 := ⟨k - 1, by simp at hk; omega⟩
    obtain ⟨r1, h1, h2, _⟩ := scanInt_tokens INT_MIN INT_MAX
      (by simpa using h) (hr v (by simp)).1 (hr v (by simp)).2
    have := ih k r1 h2 (fun x hx => hr x (by simp [hx])) (by simp at hk; omega)
    simp [skipInts, h1, this]

/-! ## The name loop -/

theorem tokens_ne_nil {inp t : List Char} {ts : List (List Char)} (h : tokens inp = t :: ts) :
    t ≠ [] := by
  obtain ⟨_, _, h2, _⟩ := (tokens_skipSpace inp).2 t ts h
  exact h2

theorem scanStr_ok_length {cap : Nat} {inp v rest : List Char}
    (h : scanStr cap inp = .ok v rest) : rest.length < inp.length := by
  cases hts : tokens inp with
  | nil => rw [scanStr_nil cap hts] at h; cases h
  | cons t ts =>
    obtain ⟨r, h1, _, h3, _⟩ := scanStr_tokens cap hts
    rw [h1] at h
    split at h
    · cases h
    · simp only [Scan.ok.injEq] at h
      rw [← h.2]
      exact h3

/-- The step bound given to the name loop is never used up. -/
theorem nameLoop_fuel (statFile : List Char) (fuel : Nat) : ∀ (comm inp : List Char),
    inp.length < fuel → nameLoop statFile fuel comm inp ≠ .outOfFuel := by
  induction fuel with
  | zero => intro comm inp h; omega
  | succ fuel ih =>
    intro comm inp h
    rw [nameLoop]
    cases comm.getLast? with
    | none => simp
    | some last =>
      simp only
      split
      · simp
      · cases hs : scanStr 20 inp with
        | fail => simp [expect]
        | undefined => simp [expect]
        | ok v rest =>
          have := scanStr_ok_length hs
          simp only [expect]
          split
          · simp
          · exact ih _ _ (by omega)

theorem endsClose_append_piece (comm : List Char) {t : List Char} (ht : t ≠ []) :
    endsClose (comm ++ ' ' :: t) = endsClose t := by
  obtain ⟨a, as, rfl⟩ := List.exists_cons_of_ne_nil ht
  have e : comm ++ ' ' :: a :: as = (comm ++ [' ']) ++ a :: as := by simp
  simp only [endsClose]
  rw [e, List.getLast?_append_cons]

theorem onlyLastCloses_congr {a b : List Char} (h : endsClose a = endsClose b)
    (ps : List (List Char)) : onlyLastCloses (a :: ps) = onlyLastCloses (b :: ps) := by
  cases ps <;> simp [onlyLastCloses, h]

theorem length_le_joinSp (pieces : List (List Char)) : ∀ comm : List Char,
    comm.length ≤ (joinSp comm pieces).length := by
  induction pieces with
  | nil => intro comm; simp [joinSp]
  | cons t ps ih =>
    intro comm
    have := ih (comm ++ ' ' :: t)
    simp only [joinSp, List.foldl_cons] at this ⊢
    simp only [List.length_append, List.length_cons] at this
    omega

theorem joinSp_eq_intercalate (pieces : List (List Char)) : ∀ comm : List Char,
    joinSp comm pieces = [' '].intercalate (comm :: pieces) := by
  induction pieces with
  | nil => intro comm; simp [joinSp, List.intercalate]
  | cons t ps ih =>
    intro comm
    have h1 := ih (comm ++ ' ' :: t)
    simp only [joinSp, List.foldl_cons] at h1 ⊢
    rw [h1]
    cases ps <;> simp [List.intercalate, List.intersperse]

/-- The name loop joins the pieces of a name up to the first one that ends with `)`,
provided each later piece fits `tempStr` and the whole name fits `comm`. -/
theorem nameLoop_tokens (statFile : List Char) (pieces : List (List Char)) :
    ∀ (comm inp : List Char) (fuel : Nat) (ts : List (List Char)),
    tokens inp = pieces ++ ts → comm ≠ [] → onlyLastCloses (comm :: pieces) = true →
    (∀ t ∈ pieces, t.length ≤ 19 ∧ ∀ c ∈ t, c ≠ NUL) →
    (joinSp comm pieces).length ≤ 99 → inp.length < fuel →
    ∃ rest, nameLoop statFile fuel comm inp = .ok (joinSp comm pieces, rest) ∧
      tokens rest = ts ∧ rest.length ≤ inp.length := by
  induction pieces with
  | nil =>
    intro comm inp fuel ts h _ hc _ _ hf
    obtain ⟨fuel, rfl⟩ : ∃ j, fuel = j + 1 := ⟨fuel - 1, by omega⟩
    have hl : comm.getLast? = some ')' := by simpa [onlyLastCloses, endsClose] using hc
    exact ⟨inp, by simp [nameLoop, hl, joinSp], by simpa using h, le_refl _⟩
  | cons t ps ih =>
    intro comm inp fuel ts h hne hc hb hlen hf
    obtain ⟨fuel, rfl⟩ : ∃ j, fuel = j + 1 := ⟨fuel - 1, by omega⟩
    have ht : tokens inp = t :: (ps ++ ts) := by simpa using h
    have htne := tokens_ne_nil ht
    obtain ⟨r1, h1, h2, h3, _⟩ := scanStr_tokens 20 ht
    have hbt := hb t (by simp)
    rw [if_neg (by omega), cstr_of_no_NUL hbt.2] at h1
    simp only [onlyLastCloses, Bool.and_eq_true, Bool.not_eq_true'] at hc
    obtain ⟨last, hlast⟩ : ∃ last, comm.getLast? = some last := by
      cases hg : comm.getLast? with
      | none => exact absurd (List.getLast?_eq_none_iff.1 hg) hne
      | some l => exact ⟨l, rfl⟩
    have hlast' : last ≠ ')' := by
      intro e
      have := hc.1
      simp [endsClose, hlast, e] at this
    have hjoin : joinSp comm (t :: ps) = joinSp (comm ++ ' ' :: t) ps := by
      simp [joinSp]
    have hfit := length_le_joinSp ps (comm ++ ' ' :: t)
    rw [hjoin] at hlen
    simp only [List.length_append, List.length_cons] at hfit
    obtain ⟨rest, h4, h5, h6⟩ := ih (comm ++ ' ' :: t) r1 fuel ts h2 (by simp)
      (by rw [onlyLastCloses_congr (endsClose_append_piece comm htne)]; exact hc.2)
      (fun x hx => hb x (by simp [hx])) hlen (by omega)
    refine ⟨rest, ?_, h5, by omega⟩
    rw [nameLoop, hlast]
    simp only [if_neg hlast', h1, expect, MAX_STR_SIZE]
    rw [if_neg (by omega), h4, hjoin]

/-- The name loop returns `NULL` when the record ends before a piece ends with `)`. -/
theorem nameLoop_short (statFile : List Char) (pieces : List (List Char)) :
    ∀ (comm inp : List Char) (fuel : Nat),
    tokens inp = pieces → comm ≠ [] → endsClose comm = false → noneCloses pieces = true →
    (∀ t ∈ pieces, t.length ≤ 19 ∧ ∀ c ∈ t, c ≠ NUL) →
    (joinSp comm pieces).length ≤ 99 → inp.length < fuel →
    nameLoop statFile fuel comm inp = .null (msgRead statFile) := by
  induction pieces with
  | nil =>
    intro comm inp fuel h hne hc _ _ _ hf
    obtain ⟨fuel, rfl⟩ : ∃ j, fuel = j + 1 := ⟨fuel - 1, by omega⟩
    obtain ⟨last, hlast⟩ : ∃ last, comm.getLast? = some last := by
      cases hg : comm.getLast? with
      | none => exact absurd (List.getLast?_eq_none_iff.1 hg) hne
      | some l => exact ⟨l, rfl⟩
    have hlast' : last ≠ ')' := by
      intro e
      simp [endsClose, hlast, e] at hc
    rw [nameLoop, hlast]
    simp only [if_neg hlast', scanStr_nil 20 h, expect]
  | cons t ps ih =>
    intro comm inp fuel h hne hc hn hb hlen hf
    obtain ⟨fuel, rfl⟩ : ∃ j, fuel = j + 1 := ⟨fuel - 1, by omega⟩
    have htne := tokens_ne_nil h
    obtain ⟨r1, h1, h2, h3, _⟩ := scanStr_tokens 20 h
    have hbt := hb t (by simp)
    rw [if_neg (by omega), cstr_of_no_NUL hbt.2] at h1
    obtain ⟨last, hlast⟩ : ∃ last, comm.getLast? = some last := by
      cases hg : comm.getLast? with
      | none => exact absurd (List.getLast?_eq_none_iff.1 hg) hne
      | some l => exact ⟨l, rfl⟩
    have hlast' : last ≠ ')' := by
      intro e
      simp [endsClose, hlast, e] at hc
    have hjoin : joinSp comm (t :: ps) = joinSp (comm ++ ' ' :: t) ps := by
      simp [joinSp]
    have hfit := length_le_joinSp ps (comm ++ ' ' :: t)
    rw [hjoin] at hlen
    simp only [List.length_append, List.length_cons] at hfit
    simp only [noneCloses, List.all_cons, Bool.and_eq_true, Bool.not_eq_true'] at hn
    have := ih (comm ++ ' ' :: t) r1 fuel h2 (by simp)
      (by rw [endsClose_append_piece comm htne]; exact hn.1)
      (by simpa [noneCloses] using hn.2)
      (fun x hx => hb x (by simp [hx])) hlen (by omega)
    rw [nameLoop, hlast]
    simp only [if_neg hlast', h1, expect, MAX_STR_SIZE]
    rw [if_neg (by omega), this]

/-! ## Parsing a whole record -/

/-- A record whose name closes at its last piece and fits the buffers is parsed into the
entry with its values, whatever follows `threadCount`. -/
theorem parse_record (fs : List Char → Option (List Char)) (path inp : List Char)
    (r : Record) (extra : List (List Char))
    (hopen : fs path = some inp) (htok : tokens inp = r.fields ++ extra)
    (hnum : r.NumbersFit) (hname : NameFits r.name) (hclose : onlyLastCloses r.name = true)
    (hpath : path.length ≤ 99) :
    CreateProcEntryFromFile fs (some path) =
      .ok ⟨r.id, r.parentId, [' '].intercalate r.name, r.state, r.userTimeTicks,
        r.systemTimeTicks, r.threadCount, path⟩ := by
  obtain ⟨id, name, state, ppid, s9, ut, st, s4, thr⟩ := r
  obtain ⟨hid, hppid, hl9, hr9, hut, hst, hl4, hr4, hthr⟩ := hnum
  simp only at hid hppid hl9 hr9 hut hst hl4 hr4 hthr hclose hname
  cases name with
  | nil => exact absurd hname (by simp [NameFits])
  | cons t more =>
    obtain ⟨hnul, hmore, hlen⟩ := hname
    simp only [Record.fields, List.cons_append, List.append_assoc] at htok
    obtain ⟨r1, e1, k1, _⟩ := scanInt_tokens _ _ htok hid.1 hid.2
    have htne := tokens_ne_nil k1
    have htlen := length_le_joinSp more t
    obtain ⟨r2, e2, k2, _, _⟩ := scanStr_tokens MAX_STR_SIZE k1
    rw [if_neg (by simp only [MAX_STR_SIZE]; omega), cstr_of_no_NUL hnul] at e2
    obtain ⟨r3, e3, k3, _⟩ := nameLoop_tokens path more t r2 (r2.length + 1) _ k2 htne
      hclose hmore hlen (by omega)
    obtain ⟨r4, e4, k4, _⟩ := scanChar_tokens k3
    obtain ⟨r5, e5, k5, _⟩ := scanInt_tokens _ _ k4 hppid.1 hppid.2
    obtain ⟨r6, e6, k6, _⟩ := skipInts_tokens s9 r5 _ k5 hr9
    obtain ⟨r7, e7, k7, _⟩ := scanULong_tokens k6 hut
    obtain ⟨r8, e8, k8, _⟩ := scanULong_tokens k7 hst
    obtain ⟨r9, e9, k9, _⟩ := skipInts_tokens s4 r8 _ k8 hr4
    obtain ⟨r10, e10, _, _⟩ := scanInt_tokens _ _ k9 hthr.1 hthr.2
    rw [hl9] at e6
    rw [hl4] at e9
    simp only [CreateProcEntryFromFile, hopen, bind, Res.bind, expect, e1, e2, e3, e4, e5,
      e6, e7, e8, e9, e10, joinSp_eq_intercalate]
    rw [if_neg (by simp only [MAX_STR_SIZE]; omega)]

theorem expect_ne_outOfFuel {α : Type} (msg : List Char) (x : Scan α) :
    expect msg x ≠ .outOfFuel := by
  cases x <;> simp [expect]

theorem bind_ne_outOfFuel {α β : Type} (x : Res α) (f : α → Res β)
    (hx : x ≠ .outOfFuel) (hf : ∀ v, f v ≠ .outOfFuel) : x.bind f ≠ .outOfFuel := by
  cases x with
  | ok v => exact hf v
  | null msg => simp [Res.bind]
  | undefined => simp [Res.bind]
  | outOfFuel => exact absurd rfl hx

/-- The parser always comes to an end: it returns an entry, returns `NULL`, or reaches
undefined behaviour; the step bound of the name loop is never the reason it stops. -/
theorem CreateProcEntryFromFile_ne_outOfFuel (fs : List Char → Option (List Char))
    (statFile : Option (List Char)) : CreateProcEntryFromFile fs statFile ≠ .outOfFuel := by
  unfold CreateProcEntryFromFile
  cases statFile with
  | none => simp
  | some path =>
    simp only
    cases fs path with
    | none => simp
    | some inp =>
      simp only [bind]
      refine bind_ne_outOfFuel _ _ (expect_ne_outOfFuel _ _) ?_
      rintro ⟨pid, r1⟩
      refine bind_ne_outOfFuel _ _ (expect_ne_outOfFuel _ _) ?_
      rintro ⟨comm0, r2⟩
      refine bind_ne_outOfFuel _ _ (nameLoop_fuel _ _ _ _ (Nat.lt_succ_self _)) ?_
      rintro ⟨comm, r3⟩
      refine bind_ne_outOfFuel _ _ (expect_ne_outOfFuel _ _) ?_
      rintro ⟨state, r4⟩
      refine bind_ne_outOfFuel _ _ (expect_ne_outOfFuel _ _) ?_
      rintro ⟨ppid, r5⟩
      refine bind_ne_outOfFuel _ _ (expect_ne_outOfFuel _ _) ?_
      rintro ⟨_, r6⟩
      refine bind_ne_outOfFuel _ _ (expect_ne_outOfFuel _ _) ?_
      rintro ⟨utime, r7⟩
      refine bind_ne_outOfFuel _ _ (expect_ne_outOfFuel _ _) ?_
      rintro ⟨stime, r8⟩
      refine bind_ne_outOfFuel _ _ (expect_ne_outOfFuel _ _) ?_
      rintro ⟨_, r9⟩
      refine bind_ne_outOfFuel _ _ (expect_ne_outOfFuel _ _) ?_
      rintro ⟨numThreads, r10⟩
      simp only
      split <;> simp

/-- C1: a well-formed record whose name is one white-space-free token ending in `)`
(numbers fitting their C types, name and path of at most 99 bytes, whatever fields follow
`threadCount`) is parsed successfully into the entry whose `pid`, `comm`, `state`, `ppid`,
`utime`, `stime`, `num_threads` are the record's id, name token, state character, parent
id, the two tick counts undivided and the thread count, and whose `path` is the path
given. -/
theorem CreateProcEntryFromFile_single_token_name (fs : List Char → Option (List Char))
    (path inp : List Char) (r : Record) (extra : List (List Char)) (name : List Char)
    (hopen : fs path = some inp) (htok : tokens inp = r.fields ++ extra)
    (hnum : r.NumbersFit) (hname : r.name = [name]) (hclose : endsClose name = true)
    (hnul : ∀ c ∈ name, c ≠ NUL) (hlen : name.length ≤ 99) (hpath : path.length ≤ 99) :
    CreateProcEntryFromFile fs (some path) =
      .ok { pid := r.id, comm := name, state := r.state, ppid := r.parentId,
            utime := r.userTimeTicks, stime := r.systemTimeTicks,
            num_threads := r.threadCount, path := path } := by
  have h := parse_record fs path inp r extra hopen htok hnum
    (by rw [hname]; exact ⟨hnul, by simp, by simpa [joinSp] using hlen⟩)
    (by rw [hname]; simpa [onlyLastCloses] using hclose) hpath
  rw [h, hname]
  simp [List.intercalate, List.intersperse]

theorem CreateProcEntryFromFile_single_token_name_witness :
    CreateProcEntryFromFile
        (fun _ => some "42 (bash) S 1 42 42 0 -1 4194304 100 0 0 0 1234 567 0 0 20 0 3 0 99".toList)
        (some "/proc/42/stat".toList) =
      .ok { pid := 42, comm := "(bash)".toList, state := 'S', ppid := 1, utime := 1234,
            stime := 567, num_threads := 3, path := "/proc/42/stat".toList } :=
  CreateProcEntryFromFile_single_token_name
    (fun _ => some "42 (bash) S 1 42 42 0 -1 4194304 100 0 0 0 1234 567 0 0 20 0 3 0 99".toList)
    "/proc/42/stat".toList
    "42 (bash) S 1 42 42 0 -1 4194304 100 0 0 0 1234 567 0 0 20 0 3 0 99".toList
    ⟨42, ["(bash)".toList], 'S', 1, [42, 42, 0, -1, 4194304, 100, 0, 0, 0], 1234, 567,
      [0, 0, 20, 0], 3⟩
    ["0".toList, "99".toList] "(bash)".toList rfl (by decide) (by decide) rfl (by decide)
    (by decide) (by decide) (by decide)

/-- C2: the name loop does not join pieces of every length. In the record below the name
is `(Web` followed by a second piece of 20 bytes, the only one ending in `)`; `%s` stores
that piece and its terminator, 21 bytes, in the 20-byte `tempStr`: the behaviour is
undefined instead of `comm` being the two pieces joined by a space. -/
theorem CreateProcEntryFromFile_long_piece_overruns_tempStr :
    tokens (statLine "42".toList "(Web   abcdefghijklmnopqrs)".toList) =
      Record.fields ⟨42, ["(Web".toList, "abcdefghijklmnopqrs)".toList], 'S', 1,
        [0, 0, 0, 0, 0, 0, 0, 0, 0], 0, 0, [0, 0, 0, 0], 1⟩ ++ ["0".toList, "0".toList] ∧
    onlyLastCloses ["(Web".toList, "abcdefghijklmnopqrs)".toList] = true ∧
    "abcdefghijklmnopqrs)".toList.length = 20 ∧
    CreateProcEntryFromFile
        (fun _ => some (statLine "42".toList "(Web   abcdefghijklmnopqrs)".toList))
        (some "/proc/42/stat".toList) = .undefined := by
  decide

theorem onlyLastCloses_take : ∀ (l : List (List Char)) (m : Nat),
    onlyLastCloses l = true → m < l.length → noneCloses (l.take m) = true
  | [], _, h, _ => by simp [onlyLastCloses] at h
  | [_], m, _, hm => by
    have : m = 0 := by simpa using hm
    subst this
    simp [noneCloses]
  | t :: u :: rest, 0, _, _ => by simp [noneCloses]
  | t :: u :: rest, m + 1, h, hm => by
    simp only [onlyLastCloses, Bool.and_eq_true, Bool.not_eq_true'] at h
    have ih := onlyLastCloses_take (u :: rest) m h.2 (by simpa using hm)
    simp only [noneCloses, List.take_succ_cons, List.all_cons, Bool.and_eq_true,
      Bool.not_eq_true'] at ih ⊢
    exact ⟨h.1, ih⟩

theorem length_joinSp_take (t : List Char) (more : List (List Char)) (m : Nat) :
    (joinSp t (more.take m)).length ≤ (joinSp t more).length := by
  have h := length_le_joinSp (more.drop m) (joinSp t (more.take m))
  have e : joinSp (joinSp t (more.take m)) (more.drop m) = joinSp t more := by
    simp only [joinSp, ← List.foldl_append, List.take_append_drop]
  rwa [e] at h

/-- C3 (amended): a record cut short, whose white-space-separated tokens are the first `m`
fields of a well-formed record (each field a token of its own, the name fitting the
buffers) with `m` less than the number of fields, is rejected: `CreateProcEntryFromFile`
returns `NULL` and no entry. -/
theorem CreateProcEntryFromFile_truncated_record (fs : List Char → Option (List Char))
    (path inp : List Char) (r : Record) (m : Nat)
    (hopen : fs path = some inp) (htok : tokens inp = r.fields.take m)
    (hm : m < r.fields.length)
    (hnum : r.NumbersFit) (hname : NameFits r.name) (hclose : onlyLastCloses r.name = true) :
    ∃ msg, CreateProcEntryFromFile fs (some path) = .null msg := by
  obtain ⟨id, name, state, ppid, s9, ut, st, s4, thr⟩ := r
  obtain ⟨hid, hppid, hl9, hr9, hut, hst, hl4, hr4, hthr⟩ := hnum
  simp only at hid hppid hl9 hr9 hut hst hl4 hr4 hthr hclose hname
  cases name with
  | nil => exact absurd hname (by simp [NameFits])
  | cons t more =>
    obtain ⟨hnul, hmore, hlen⟩ := hname
    simp only [Record.fields, List.cons_append, List.append_assoc, List.length_cons,
      List.length_append, List.length_map, hl9, hl4, List.length_nil] at htok hm
    -- the id
    rcases m with _ | m
    · have e1 := scanInt_nil INT_MIN INT_MAX (show tokens inp = [] by simpa using htok)
      simp only [CreateProcEntryFromFile, hopen, bind, Res.bind, expect, e1]
      exact ⟨_, rfl⟩
    rw [List.take_succ_cons] at htok
    obtain ⟨r1, e1, k1, _⟩ := scanInt_tokens _ _ htok hid.1 hid.2
    -- the first piece of the name
    rcases m with _ | m
    · have e2 := scanStr_nil MAX_STR_SIZE (show tokens r1 = [] by simpa using k1)
      simp only [CreateProcEntryFromFile, hopen, bind, Res.bind, expect, e1, e2]
      exact ⟨_, rfl⟩
    rw [List.take_succ_cons] at k1
    have htne := tokens_ne_nil k1
    have htlen := length_le_joinSp more t
    obtain ⟨r2, e2, k2, _, _⟩ := scanStr_tokens MAX_STR_SIZE k1
    rw [if_neg (by simp only [MAX_STR_SIZE]; omega), cstr_of_no_NUL hnul] at e2
    rw [List.take_append_eq_append_take] at k2
    -- the further pieces
    by_cases hmm : m < more.length
    · have h0 : m - more.length = 0 := by omega
      rw [h0, List.take_zero, List.append_nil] at k2
      have hopenT : endsClose t = false := by
        cases more with
        | nil => simp at hmm
        | cons u rest =>
          simp only [onlyLastCloses, Bool.and_eq_true, Bool.not_eq_true'] at hclose
          exact hclose.1
      have hnone : noneCloses (more.take m) = true := by
        cases more with
        | nil => simp at hmm
        | cons u rest =>
          simp only [onlyLastCloses, Bool.and_eq_true] at hclose
          exact onlyLastCloses_take (u :: rest) m hclose.2 hmm
      have e3 := nameLoop_short path (more.take m) t r2 (r2.length + 1) k2 htne hopenT hnone
        (fun x hx => hmore x (List.mem_of_mem_take hx))
        (le_trans (length_joinSp_take t more m) hlen) (by omega)
      simp only [CreateProcEntryFromFile, hopen, bind, Res.bind, expect, e1, e2,
        e3]
      exact ⟨_, rfl⟩
    rw [List.take_of_length_le (by omega : more.length ≤ m)] at k2
    obtain ⟨r3, e3, k3, _⟩ := nameLoop_tokens path more t r2 (r2.length + 1) _ k2 htne
      hclose hmore hlen (by omega)
    obtain ⟨j, hj⟩ : ∃ j, m - more.length = j := ⟨_, rfl⟩
    rw [hj] at k3
    -- the state
    rcases j with _ | j
    · have e4 := scanChar_nil (show tokens r3 = [] by simpa using k3)
      simp only [CreateProcEntryFromFile, hopen, bind, Res.bind, expect, e1, e2,
        e3, e4]
      exact ⟨_, rfl⟩
    rw [List.take_succ_cons] at k3
    obtain ⟨r4, e4, k4, _⟩ := scanChar_tokens k3
    -- the parent id
    rcases j with _ | j
    · have e5 := scanInt_nil INT_MIN INT_MAX (show tokens r4 = [] by simpa using k4)
      simp only [CreateProcEntryFromFile, hopen, bind, Res.bind, expect, e1, e2,
        e3, e4, e5]
      exact ⟨_, rfl⟩
    rw [List.take_succ_cons] at k4
    obtain ⟨r5, e5, k5, _⟩ := scanInt_tokens _ _ k4 hppid.1 hppid.2
    rw [List.take_append_eq_append_take, List.length_map, hl9] at k5
    -- nine skipped integers
    by_cases h9 : j < 9
    · have h0 : j - 9 = 0 := by omega
      rw [h0, List.take_zero, List.append_nil, ← List.map_take] at k5
      have e6 := skipInts_short (s9.take j) 9 r5 k5
        (fun v hv => hr9 v (List.mem_of_mem_take hv))
        (by rw [List.length_take]; omega)
      simp only [CreateProcEntryFromFile, hopen, bind, Res.bind, expect, e1, e2,
        e3, e4, e5, e6]
      exact ⟨_, rfl⟩
    rw [List.take_of_length_le (by rw [List.length_map]; omega)] at k5
    obtain ⟨r6, e6, k6, _⟩ := skipInts_tokens s9 r5 _ k5 hr9
    rw [hl9] at e6
    obtain ⟨i, hi⟩ : ∃ i, j - 9 = i := ⟨_, rfl⟩
    rw [hi] at k6
    -- the two tick counts
    rcases i with _ | i
    · have e7 := scanULong_nil (show tokens r6 = [] by simpa using k6)
      simp only [CreateProcEntryFromFile, hopen, bind, Res.bind, expect, e1, e2,
        e3, e4, e5, e6, e7]
      exact ⟨_, rfl⟩
    rw [List.take_succ_cons] at k6
    obtain ⟨r7, e7, k7, _⟩ := scanULong_tokens k6 hut
    rcases i with _ | i
    · have e8 := scanULong_nil (show tokens r7 = [] by simpa using k7)
      simp only [CreateProcEntryFromFile, hopen, bind, Res.bind, expect, e1, e2,
        e3, e4, e5, e6, e7, e8]
      exact ⟨_, rfl⟩
    rw [List.take_succ_cons] at k7
    obtain ⟨r8, e8, k8, _⟩ := scanULong_tokens k7 hst
    rw [List.take_append_eq_append_take, List.length_map, hl4] at k8
    -- four skipped integers
    by_cases h4 : i < 4
    · have h0 : i - 4 = 0 := by omega
      rw [h0, List.take_zero, List.append_nil, ← List.map_take] at k8
      have e9 := skipInts_short (s4.take i) 4 r8 k8
        (fun v hv => hr4 v (List.mem_of_mem_take hv))
        (by rw [List.length_take]; omega)
      simp only [CreateProcEntryFromFile, hopen, bind, Res.bind, expect, e1, e2,
        e3, e4, e5, e6, e7, e8, e9]
      exact ⟨_, rfl⟩
    rw [List.take_of_length_le (by rw [List.length_map]; omega)] at k8
    obtain ⟨r9, e9, k9, _⟩ := skipInts_tokens s4 r8 _ k8 hr4
    rw [hl4] at e9
    -- the thread count is the token that is missing
    have h0 : i - 4 = 0 := by omega
    rw [h0, List.take_zero] at k9
    have e10 := scanInt_nil LONG_MIN LONG_MAX k9
    simp only [CreateProcEntryFromFile, hopen, bind, Res.bind, expect, e1, e2,
      e3, e4, e5, e6, e7, e8, e9, e10]
    exact ⟨_, rfl⟩

theorem CreateProcEntryFromFile_truncated_record_witness :
    ∃ msg, CreateProcEntryFromFile (fun _ => some "42 (tmux: server) S 1 42 42 0".toList)
      (some "/proc/42/stat".toList) = .null msg :=
  CreateProcEntryFromFile_truncated_record
    (fun _ => some "42 (tmux: server) S 1 42 42 0".toList) "/proc/42/stat".toList
    "42 (tmux: server) S 1 42 42 0".toList
    ⟨42, ["(tmux:".toList, "server)".toList], 'S', 1, [42, 42, 0, -1, 4194304, 100, 0, 0, 0],
      1234, 567, [0, 0, 20, 0], 3⟩
    8 rfl (by decide) (by decide) (by decide) (by decide) (by decide)

/-- C3 (as stated, refuted): a record with 19 white-space-separated tokens, one fewer than
the 20 its fields need, is parsed successfully: the state character and the parent id
share the token `S1`, which ` %c %d` reads as two fields. -/
theorem CreateProcEntryFromFile_glued_fields_accepted :
    (tokens "42 (bash) S1 42 42 0 -1 4194304 100 0 0 0 1234 567 0 0 20 0 3".toList).length
      = 19 ∧
    (Record.fields ⟨42, ["(bash)".toList], 'S', 1, [42, 42, 0, -1, 4194304, 100, 0, 0, 0],
      1234, 567, [0, 0, 20, 0], 3⟩).length = 20 ∧
    CreateProcEntryFromFile
        (fun _ => some "42 (bash) S1 42 42 0 -1 4194304 100 0 0 0 1234 567 0 0 20 0 3".toList)
        (some "/proc/42/stat".toList) =
      .ok { pid := 42, comm := "(bash)".toList, state := 'S', ppid := 1, utime := 1234,
            stime := 567, num_threads := 3, path := "/proc/42/stat".toList } := by
  decide

/-! ## The comparators -/

theorem wrapInt_of_fits {x : Int} (h1 : INT_MIN ≤ x) (h2 : x ≤ INT_MAX) : wrapInt x = x := by
  simp only [INT_MIN, INT_MAX] at h1 h2
  simp only [wrapInt]
  omega

/-- When the difference of the two ids fits an `int`, `PidSort` has the sign of their
comparison. -/
theorem PidSort_sign (a b : ProcEntry) (h1 : INT_MIN ≤ a.pid - b.pid)
    (h2 : a.pid - b.pid ≤ INT_MAX) :
    (PidSort a b < 0 ↔ a.pid < b.pid) ∧ (PidSort a b = 0 ↔ a.pid = b.pid) ∧
      (0 < PidSort a b ↔ b.pid < a.pid) := by
  rw [PidSort, wrapInt_of_fits h1 h2]
  omega

theorem shift_getElem? (n : Nat) : ∀ buf : List Char, n < buf.length →
    ((List.range n).foldl shiftStep buf).length = buf.length ∧
    ∀ j, ((List.range n).foldl shiftStep buf)[j]? =
      if j < n then buf[j + 1]? else buf[j]? := by
  induction n with
  | zero => intro buf _; simp
  | succ n ih =>
    intro buf h
    obtain ⟨hl, hg⟩ := ih buf (by omega)
    rw [List.range_succ, List.foldl_append]
    simp only [List.foldl_cons, List.foldl_nil]
    generalize List.foldl shiftStep buf (List.range n) = st at hl hg
    simp only [shiftStep, List.length_set]
    refine ⟨hl, ?_⟩
    intro j
    rw [List.getElem?_set, List.getD_eq_getElem?_getD, hg (n + 1), hg j]
    have hb : buf[n + 1]? = some (buf[n + 1]) := List.getElem?_eq_getElem h
    by_cases hj : n = j
    · subst hj
      simp [hl, hb]
      omega
    · simp only [hj, if_false]
      by_cases hjn : j < n
      · have : j < n + 1 := by omega
        simp [hjn, this]
      · have : ¬ j < n + 1 := by omega
        simp [hjn, this]

/-- The shifting loop moves bytes 1 to 99 of a 100-byte array down by one position. -/
theorem shiftLeft_eq (buf : List Char) (h : buf.length = 100) :
    shiftLeft MAX_STR_SIZE buf = (buf.drop 1).take 99 ++ buf.drop 99 := by
  obtain ⟨_, hg⟩ := shift_getElem? 99 buf (by omega)
  have e : shiftLeft MAX_STR_SIZE buf = (List.range 99).foldl shiftStep buf := rfl
  rw [e]
  generalize List.foldl shiftStep buf (List.range 99) = st at hg
  apply List.ext_getElem?
  intro j
  rw [hg j, List.getElem?_append]
  simp only [List.length_take, List.length_drop, h]
  by_cases hj : j < 99
  · simp [hj, List.getElem?_take, List.getElem?_drop, Nat.add_comm]
  · have hj' : 99 + (j - 99) = j := by omega
    simp [hj, List.getElem?_drop, hj']

theorem cstr_append_NUL {t : List Char} (h : ∀ c ∈ t, c ≠ NUL) (rest : List Char) :
    cstr (t ++ NUL :: rest) = t := by
  unfold cstr
  have := takeWhile_append_stop (p := fun c => c != NUL) (t := t) (r := NUL :: rest)
    (fun c hc => by simpa using h c hc) (fun c hc => by simp at hc; simp [← hc])
  exact this.1

theorem take_append_cons {t g : List Char} {x : Char} {n : Nat} (h : t.length < n) :
    (t ++ x :: g).take n = t ++ x :: g.take (n - t.length - 1) := by
  rw [List.take_append_eq_append_take, List.take_of_length_le (by omega)]
  obtain ⟨k, hk⟩ : ∃ k, n - t.length = k + 1 := ⟨n - t.length - 1, by omega⟩
  rw [hk, List.take_succ_cons]
  simp

/-- After the shift the working copy holds the name without its first byte. -/
theorem cstr_shiftLeft (junk : List Char) (a : Char) (t : List Char)
    (hj : junk.length = 100) (hlen : t.length + 1 ≤ 99) (hnul : ∀ c ∈ t, c ≠ NUL) :
    cstr (shiftLeft MAX_STR_SIZE (strcpy junk (a :: t))) = t := by
  have hbuf : (strcpy junk (a :: t)).length = 100 := by
    simp only [strcpy, List.length_append, List.length_cons, List.length_drop]
    omega
  rw [shiftLeft_eq _ hbuf]
  have h1 : List.drop 1 (strcpy junk (a :: t)) = t ++ NUL :: junk.drop (t.length + 2) := by
    simp [strcpy]
  rw [h1, take_append_cons (by omega), List.append_assoc, List.cons_append,
    cstr_append_NUL hnul]

/-- The working copy `CommSort` compares, read as a C string, is the normalised name. -/
theorem cstr_working_copy (junk name : List Char) (hj : junk.length = 100)
    (hne : name ≠ []) (hlen : name.length ≤ 99) (hnul : ∀ c ∈ name, c ≠ NUL) :
    cstr (if (strcpy junk name).getD 1 NUL = '(' then shiftLeft MAX_STR_SIZE (strcpy junk name)
      else strcpy junk name) = normName name := by
  obtain ⟨a, t, rfl⟩ := List.exists_cons_of_ne_nil hne
  have hnul' : ∀ c ∈ t, c ≠ NUL := fun c hc => hnul c (by simp [hc])
  by_cases h2 : (strcpy junk (a :: t)).getD 1 NUL = '('
  · rw [if_pos h2, cstr_shiftLeft junk a t hj (by simpa using hlen) hnul']
    cases t with
    | nil => simp [strcpy] at h2; exact absurd h2 (by decide)
    | cons b bs =>
      have hb : b = '(' := by simpa [strcpy] using h2
      simp [normName, hb]
  · rw [if_neg h2]
    simp only [strcpy]
    rw [cstr_append_NUL hnul]
    cases t with
    | nil => simp [normName]
    | cons b bs =>
      have hb : ¬ b = '(' := by simpa [strcpy] using h2
      simp [normName, hb]

/-- On names that are C strings of 1 to 99 bytes `CommSort` is `strcmp` of the normalised
names, whatever the two arrays held before. -/
theorem CommSort_eq_strcmp (junk1 junk2 : List Char) (a b : ProcEntry)
    (hj1 : junk1.length = 100) (hj2 : junk2.length = 100)
    (ha : a.comm ≠ [] ∧ a.comm.length ≤ 99 ∧ ∀ c ∈ a.comm, c ≠ NUL)
    (hb : b.comm ≠ [] ∧ b.comm.length ≤ 99 ∧ ∀ c ∈ b.comm, c ≠ NUL) :
    CommSort junk1 junk2 a b = strcmp (normName a.comm) (normName b.comm) := by
  simp only [CommSort]
  rw [cstr_working_copy junk1 a.comm hj1 ha.1 ha.2.1 ha.2.2,
    cstr_working_copy junk2 b.comm hj2 hb.1 hb.2.1 hb.2.2]

theorem toNat_pos_of_ne_NUL {c : Char} (h : c ≠ NUL) : 0 < c.toNat := by
  rcases Nat.eq_zero_or_pos c.toNat with h0 | h0
  · exact absurd (by rw [← Char.ofNat_toNat c, h0]; rfl) h
  · exact h0

theorem toNat_ne_of_ne {a b : Char} (h : a ≠ b) : a.toNat ≠ b.toNat := by
  intro e
  exact h (by rw [← Char.ofNat_toNat a, e, Char.ofNat_toNat])

theorem lexLt_cons_same {a : Char} {as bs : List Char} :
    LexLt (a :: as) (a :: bs) ↔ LexLt as bs := by
  constructor
  · intro h
    cases h with
    | cons h => exact h
    | rel h => exact absurd h (lt_irrefl _)
  · exact List.Lex.cons

theorem lexLt_cons_ne {a b : Char} {as bs : List Char} (h : a ≠ b) :
    LexLt (a :: as) (b :: bs) ↔ a.toNat < b.toNat := by
  constructor
  · intro h'
    cases h' with
    | cons _ => exact absurd rfl h
    | rel h' => exact h'
  · intro h'
    exact List.Lex.rel h'

/-- The sign of `strcmp` on two C strings is their byte-wise lexicographic comparison. -/
theorem strcmp_sign : ∀ a b : List Char, (∀ c ∈ a, c ≠ NUL) → (∀ c ∈ b, c ≠ NUL) →
    (strcmp a b < 0 ↔ LexLt a b) ∧ (strcmp a b = 0 ↔ a = b) ∧ (0 < strcmp a b ↔ LexLt b a)
  | [], [], _, _ => by
    refine ⟨?_, ?_, ?_⟩ <;> simp [strcmp, LexLt, List.Lex.not_nil_right]
  | [], b :: bs, _, hb => by
    have := toNat_pos_of_ne_NUL (hb b (by simp))
    refine ⟨?_, ?_, ?_⟩
    · simp only [strcmp, LexLt]
      exact ⟨fun _ => List.Lex.nil, fun _ => by omega⟩
    · simp only [strcmp]
      exact ⟨fun h => by omega, fun h => by cases h⟩
    · simp only [strcmp, LexLt]
      exact ⟨fun h => by omega, fun h => absurd h (List.Lex.not_nil_right _ _)⟩
  | a :: as, [], ha, _ => by
    have := toNat_pos_of_ne_NUL (ha a (by simp))
    refine ⟨?_, ?_, ?_⟩
    · simp only [strcmp, LexLt]
      exact ⟨fun h => by omega, fun h => absurd h (List.Lex.not_nil_right _ _)⟩
    · simp only [strcmp]
      exact ⟨fun h => by omega, fun h => by cases h⟩
    · simp only [strcmp, LexLt]
      exact ⟨fun _ => List.Lex.nil, fun _ => by omega⟩
  | a :: as, b :: bs, ha, hb => by
    by_cases hab : a = b
    · subst hab
      have ih := strcmp_sign as bs (fun c hc => ha c (by simp [hc]))
        (fun c hc => hb c (by simp [hc]))
      simp only [strcmp, if_true, lexLt_cons_same, List.cons.injEq, true_and]
      exact ih
    · have hn := toNat_ne_of_ne hab
      have hba : b ≠ a := fun e => hab e.symm
      have e : strcmp (a :: as) (b :: bs) = (a.toNat : Int) - (b.toNat : Int) := by
        simp [strcmp, hab]
      simp only [e, lexLt_cons_ne hab, lexLt_cons_ne hba, List.cons.injEq, hab, false_and,
        iff_false]
      omega

/-- C4: `PidSort` does not order every pair of `int` ids like integer comparison. For the
ids 2147483647 and -2, both of which the parser accepts, the subtraction overflows: the
result is negative although the first id is the greater one. -/
theorem PidSort_overflow_wrong_sign :
    CreateProcEntryFromFile (fun _ => some (statLine "2147483647".toList "(a)".toList))
        (some "/proc/1/stat".toList) = .ok (entryNamed 2147483647 "(a)".toList) ∧
    CreateProcEntryFromFile (fun _ => some (statLine "-2".toList "(b)".toList))
        (some "/proc/1/stat".toList) = .ok (entryNamed (-2) "(b)".toList) ∧
    (entryNamed (-2) "(b)".toList).pid < (entryNamed 2147483647 "(a)".toList).pid ∧
    PidSort (entryNamed 2147483647 "(a)".toList) (entryNamed (-2) "(b)".toList) =
      -2147483647 := by
  decide

theorem normName_no_NUL {name : List Char} (h : ∀ c ∈ name, c ≠ NUL) :
    ∀ c ∈ normName name, c ≠ NUL := by
  intro c hc
  unfold normName at hc
  split at hc
  · exact h c (List.mem_of_mem_drop hc)
  · exact h c hc

/-- C5 (as stated, refuted): a name with three opening markers does not compare equal to
the same name with two: `CommSort` drops one byte only, so `(((a)` is compared as `((a)`
and `((a)` as `(a)`. -/
theorem CommSort_doubled_marker_not_equal :
    CommSort (List.replicate 100 'x') (List.replicate 100 'x')
      (entryNamed 1 ('(' :: '(' :: "(a)".toList)) (entryNamed 2 ('(' :: "(a)".toList)) ≠ 0 := by
  decide

/-- C5 (amended): for entries whose names are C strings of 1 to 99 bytes, the sign of
`CommSort` is that of the byte-wise lexicographic comparison of the normalised names,
where normalising drops the first byte when the second byte is `(`; and a name
`((` followed by `x` compares equal to `(` followed by `x` when `x` does not itself begin
with `(`. -/
theorem CommSort_sign (junk1 junk2 : List Char) (a b : ProcEntry)
    (hj1 : junk1.length = 100) (hj2 : junk2.length = 100)
    (ha : a.comm ≠ [] ∧ a.comm.length ≤ 99 ∧ ∀ c ∈ a.comm, c ≠ NUL)
    (hb : b.comm ≠ [] ∧ b.comm.length ≤ 99 ∧ ∀ c ∈ b.comm, c ≠ NUL) :
    ((CommSort junk1 junk2 a b < 0 ↔ LexLt (normName a.comm) (normName b.comm)) ∧
     (CommSort junk1 junk2 a b = 0 ↔ normName a.comm = normName b.comm) ∧
     (0 < CommSort junk1 junk2 a b ↔ LexLt (normName b.comm) (normName a.comm))) ∧
    (∀ x : List Char, a.comm = '(' :: '(' :: x → b.comm = '(' :: x → x.head? ≠ some '(' →
      CommSort junk1 junk2 a b = 0) := by
  have hs := strcmp_sign (normName a.comm) (normName b.comm) (normName_no_NUL ha.2.2)
    (normName_no_NUL hb.2.2)
  rw [CommSort_eq_strcmp junk1 junk2 a b hj1 hj2 ha hb]
  refine ⟨hs, ?_⟩
  intro x hax hbx hx
  rw [hs.2.1, hax, hbx]
  cases x with
  | nil => simp [normName]
  | cons c cs =>
    have hc : c ≠ '(' := by simpa using hx
    simp [normName, hc]

theorem CommSort_sign_witness :
    CommSort (List.replicate 100 'x') (List.replicate 100 'y')
      (entryNamed 1 "((weird))".toList) (entryNamed 2 "(weird))".toList) = 0 :=
  (CommSort_sign (List.replicate 100 'x') (List.replicate 100 'y')
    (entryNamed 1 "((weird))".toList) (entryNamed 2 "(weird))".toList)
    (by decide) (by decide) (by decide) (by decide)).2 "weird))".toList rfl rfl (by decide)

/-! ## The reporter -/

theorem printLoop_eq (hz : Nat) (procs : List ProcEntry) (zFlag : Int) (n : Nat) :
    ∀ (i : Nat) (out : List (List Char)), i + n = procs.length →
    printLoop hz procs zFlag n i out =
      .ok (out ++ ((procs.drop i).filter (printed zFlag)).map (PrintProcEntry hz)) := by
  induction n with
  | zero =>
    intro i out h
    simp [printLoop, List.drop_of_length_le (show procs.length ≤ i by omega)]
  | succ n ih =>
    intro i out h
    have hi : i < procs.length := by omega
    have hget : procs.get? i = some procs[i] := by simp [List.getElem?_eq_getElem hi]
    have hdrop : procs.drop i = procs[i] :: procs.drop (i + 1) := List.drop_eq_getElem_cons hi
    rw [printLoop, hget]
    simp only
    by_cases hc : zFlag ≠ 0 ∧ procs[i].state ≠ 'Z'
    · rw [if_pos hc, ih (i + 1) out (by omega)]
      have : printed zFlag procs[i] = false := by simp [printed, hc.1, hc.2]
      rw [hdrop, List.filter_cons, this]
      simp only [Bool.false_eq_true, if_false]
    · rw [if_neg hc, ih (i + 1) _ (by omega)]
      have : printed zFlag procs[i] = true := by
        simp only [printed, Bool.not_eq_true', Bool.and_eq_false_iff, decide_eq_false_iff_not]
        by_cases hz0 : zFlag ≠ 0
        · right; intro h'; exact hc ⟨hz0, h'⟩
        · left; exact hz0
      rw [hdrop, List.filter_cons, this]
      simp only [if_true, List.map_cons, List.append_assoc, List.singleton_append]

/-- C6: for a non-empty list, `PrintProcs` with the zombie flag set writes the header and
then exactly the rows of the entries whose state is `Z`, in list order; with the flag
clear it writes the header and then the row of every entry in list order. The rows kept
by the filter are a subsequence of the unfiltered rows. -/
theorem PrintProcs_rows (hz : Nat) (procs : List ProcEntry) (zFlag : Int)
    (hne : procs ≠ []) :
    (zFlag ≠ 0 → PrintProcs hz (some procs) procs.length zFlag =
      .ok ⟨header :: (procs.filter (fun p => p.state = 'Z')).map (PrintProcEntry hz), []⟩) ∧
    (zFlag = 0 → PrintProcs hz (some procs) procs.length zFlag =
      .ok ⟨header :: procs.map (PrintProcEntry hz), []⟩) ∧
    List.Sublist ((procs.filter (fun p => p.state = 'Z')).map (PrintProcEntry hz))
      (procs.map (PrintProcEntry hz)) := by
  have hlen : 0 < procs.length := List.length_pos.2 hne
  have hcount : ¬ ((procs.length : Int) ≤ 0) := by omega
  have hrun : PrintProcs hz (some procs) procs.length zFlag =
      .ok ⟨header :: ((procs.filter (printed zFlag)).map (PrintProcEntry hz)), []⟩ := by
    simp only [PrintProcs, if_neg hcount, Int.toNat_ofNat]
    rw [printLoop_eq hz procs zFlag procs.length 0 [header] (by omega)]
    simp
  refine ⟨?_, ?_, (List.filter_sublist procs).map _⟩
  · intro hz0
    rw [hrun]
    have : printed zFlag = fun p => decide (p.state = 'Z') := by
      funext p
      simp [printed, hz0]
    rw [this]
  · intro hz0
    rw [hrun]
    have : printed zFlag = fun _ => true := by
      funext p
      simp [printed, hz0]
    rw [this, List.filter_true]

theorem PrintProcs_rows_witness :
    PrintProcs 100 (some [entryNamed 1 "(a)".toList,
        { entryNamed 2 "(b)".toList with state := 'Z' }, entryNamed 3 "(c)".toList])
      3 1 =
      .ok ⟨[header, PrintProcEntry 100 { entryNamed 2 "(b)".toList with state := 'Z' }], []⟩ :=
  (PrintProcs_rows 100 [entryNamed 1 "(a)".toList,
    { entryNamed 2 "(b)".toList with state := 'Z' }, entryNamed 3 "(c)".toList] 1
    (by decide)).1 (by decide)

/-! ## Printing one entry -/

theorem showNatAux_length (fuel : Nat) : ∀ (n : Nat) (acc : List Char) (k : Nat),
    n < fuel → n < 10 ^ (k + 1) → (showNatAux fuel n acc).length ≤ acc.length + k + 1 := by
  induction fuel with
  | zero => intro n acc k h; omega
  | succ fuel ih =>
    intro n acc k h hk
    by_cases hz : n / 10 = 0
    · simp only [showNatAux, hz, if_true, List.length_cons]
      omega
    · simp only [showNatAux, hz, if_false]
      cases k with
      | zero => omega
      | succ k =>
        have hdiv : n / 10 < 10 ^ (k + 1) := by
          apply Nat.div_lt_of_lt_mul
          rw [← pow_succ']
          exact hk
        have := ih (n / 10) (digitChar (n % 10) :: acc) k (by omega) hdiv
        simp only [List.length_cons] at this
        omega

/-- The decimal text of a number below `10 ^ (k + 1)` has at most `k + 1` digits. -/
theorem showNat_length_le (n k : Nat) (h : n < 10 ^ (k + 1)) : (showNat n).length ≤ k + 1 := by
  have := showNatAux_length (n + 1) n [] k (by omega) h
  simpa [showNat] using this

theorem showInt_length_le_seven (v : Int) (h1 : -999999 ≤ v) (h2 : v ≤ 9999999) :
    (showInt v).length ≤ 7 := by
  cases v with
  | ofNat n =>
    have hn : n < 10 ^ (6 + 1) := by
      have : (n : Int) ≤ 9999999 := h2
      norm_num
      omega
    exact showNat_length_le n 6 hn
  | negSucc n =>
    have hn : n + 1 < 10 ^ (5 + 1) := by
      rw [Int.negSucc_eq] at h1
      norm_num
      omega
    have := showNat_length_le (n + 1) 5 hn
    simp only [showInt, List.length_cons]
    omega

theorem length_padLeft (w : Nat) (t : List Char) : (padLeft w t).length = max w t.length := by
  simp only [padLeft, List.length_append, List.length_replicate]
  omega

theorem length_padRight (w : Nat) (t : List Char) : (padRight w t).length = max w t.length := by
  simp only [padRight, List.length_append, List.length_replicate]
  omega

/-- C8 (as stated, refuted): a 26-character name is written in full by `%-25s`, so its row
has 90 characters where the row of an entry with a short name has 89, and the path
column starts one position further right. -/
theorem PrintProcEntry_long_name_not_truncated :
    PrintProcEntry 100 (entryNamed 42 "(abcdefghijklmnopqrstuvwx)".toList) =
      "     42       1     S     0     0       1 (abcdefghijklmnopqrstuvwx) /proc/1/stat        \n".toList ∧
    PrintProcEntry 100 (entryNamed 42 "(bash)".toList) =
      "     42       1     S     0     0       1 (bash)                    /proc/1/stat        \n".toList ∧
    (PrintProcEntry 100 (entryNamed 42 "(abcdefghijklmnopqrstuvwx)".toList)).length = 90 ∧
    (PrintProcEntry 100 (entryNamed 42 "(bash)".toList)).length = 89 := by
  decide

/-- C8 (amended): `PrintProcEntry` never truncates. After the numeric columns the row holds
the whole `comm`, padded with spaces up to 25 characters when it is shorter, one space,
the whole `path`, padded up to 20 characters when it is shorter, and the newline; its
length is that of the numeric columns plus max(25, |comm|) + max(20, |path|) + 2. When
the numeric fields fit their columns the row has 89 characters, the newline included,
plus the excess of `comm` over 25 and of `path` over 20 characters; when every field
fits its column, name and path too, it has exactly the 89. -/
theorem PrintProcEntry_pads_without_truncating (hz : Nat) (e : ProcEntry) :
    PrintProcEntry hz e =
      numericColumns e (e.utime / hz) (e.stime / hz) ++ e.comm ++
        List.replicate (25 - e.comm.length) ' ' ++ [' '] ++ e.path ++
        List.replicate (20 - e.path.length) ' ' ++ ['\n'] ∧
    (PrintProcEntry hz e).length =
      (numericColumns e (e.utime / hz) (e.stime / hz)).length +
        max 25 e.comm.length + max 20 e.path.length + 2 ∧
    (NumericFieldsFit hz e →
      (PrintProcEntry hz e).length = 89 + (e.comm.length - 25) + (e.path.length - 20)) ∧
    (FitsColumns hz e → (PrintProcEntry hz e).length = 89) := by
  have hlen : (PrintProcEntry hz e).length =
      (numericColumns e (e.utime / hz) (e.stime / hz)).length +
        max 25 e.comm.length + max 20 e.path.length + 2 := by
    simp only [PrintProcEntry, List.length_append, List.length_cons, length_padRight,
      List.length_nil]
    omega
  have hnum : NumericFieldsFit hz e →
      (PrintProcEntry hz e).length = 89 + (e.comm.length - 25) + (e.path.length - 20) := by
    rintro ⟨hpid, hppid, hut, hst, hthr⟩
    have h1 := showInt_length_le_seven e.pid hpid.1 hpid.2
    have h2 := showInt_length_le_seven e.ppid hppid.1 hppid.2
    have h3 := showInt_length_le_seven e.num_threads hthr.1 hthr.2
    have h4 := showNat_length_le (e.utime / hz) 4 (by norm_num; omega)
    have h5 := showNat_length_le (e.stime / hz) 4 (by norm_num; omega)
    rw [hlen]
    simp only [numericColumns, List.length_append, List.length_cons, length_padLeft,
      List.length_nil]
    omega
  refine ⟨by simp [PrintProcEntry, padRight], hlen, hnum, ?_⟩
  rintro ⟨hpid, hppid, hut, hst, hthr, hcomm, hpath⟩
  rw [hnum ⟨hpid, hppid, hut, hst, hthr⟩]
  omega

theorem PrintProcEntry_pads_without_truncating_witness :
    (PrintProcEntry 100 (entryNamed 42 "(abcdefghijklmnopqrstuvwx)".toList)).length =
      89 + ("(abcdefghijklmnopqrstuvwx)".toList.length - 25) + ("/proc/1/stat".toList.length - 20) ∧
    (PrintProcEntry 100 (entryNamed 42 "(bash)".toList)).length = 89 :=
  ⟨(PrintProcEntry_pads_without_truncating 100
      (entryNamed 42 "(abcdefghijklmnopqrstuvwx)".toList)).2.2.1 (by decide),
    (PrintProcEntry_pads_without_truncating 100 (entryNamed 42 "(bash)".toList)).2.2.2
      (by decide)⟩

theorem collect_aborts (env : Env) (dirPath : List Char) (d : Dirent) (after : List Dirent)
    (msg : List Char)
    (hd : ∃ statFile, statPath dirPath d.d_name = .ok statFile ∧
      CreateProcEntryFromFile env.fs (some statFile) = .null msg) :
    ∀ before : List Dirent,
    (∀ b ∈ before, ∃ statFile e, statPath dirPath b.d_name = .ok statFile ∧
      CreateProcEntryFromFile env.fs (some statFile) = .ok e) →
    collect env dirPath (before ++ d :: after) = .null msg := by
  intro before
  induction before with
  | nil =>
    intro _
    obtain ⟨statFile, h1, h2⟩ := hd
    simp only [List.nil_append, collect, bind, Res.bind, h1, h2]
  | cons b bs ih =>
    intro hb
    obtain ⟨statFile, e, h1, h2⟩ := hb b (by simp)
    have := ih (fun x hx => hb x (by simp [hx]))
    rw [List.cons_append, collect]
    simp only [bind, Res.bind, h1, h2, this]

/-- C10: when `CreateProcEntryFromFile` returns `NULL` for one of the stat files, the
files before it having been parsed successfully, `main` ends with exit status 1 and has
written nothing to standard output: neither the header nor any row. -/
theorem main_aborts_on_parse_failure (env : Env) (opts : List Opt) (cfg : Config)
    (listing before after : List Dirent) (d : Dirent) (msg : List Char)
    (hopts : getoptLoop opts initialConfig = .inr cfg)
    (hscan : env.readdir cfg.dirPath = some listing)
    (hsplit : listing.filter DirFilter = before ++ d :: after)
    (hbefore : ∀ b ∈ before, ∃ statFile e, statPath cfg.dirPath b.d_name = .ok statFile ∧
      CreateProcEntryFromFile env.fs (some statFile) = .ok e)
    (hd : ∃ statFile, statPath cfg.dirPath d.d_name = .ok statFile ∧
      CreateProcEntryFromFile env.fs (some statFile) = .null msg) :
    main env opts = .ok { status := 1, out := [], err := cfg.err ++ [msg, msgGather] } := by
  have h := collect_aborts env cfg.dirPath d after msg hd before hbefore
  have hdir : ¬ MAX_DIR_LEN ≤ cfg.dirPath.length := by
    obtain ⟨statFile, h1, _⟩ := hd
    intro hlong
    simp only [statPath] at h1
    split at h1
    · cases h1
    · rename_i hfit
      simp only [List.length_append, List.length_cons] at hfit
      omega
  simp only [main, hopts, pipeline, if_neg hdir, hscan, hsplit, h]

theorem main_aborts_on_parse_failure_witness :
    main (demoEnv [("/proc/1/stat".toList, statLine "1".toList "(init)".toList),
                   ("/proc/2/stat".toList, "2 (cut short) S 1".toList),
                   ("/proc/3/stat".toList, statLine "3".toList "(bash)".toList)]
          [⟨true, "1".toList⟩, ⟨false, "4".toList⟩, ⟨true, "2".toList⟩, ⟨true, "3".toList⟩])
        [.z] =
      .ok { status := 1, out := [],
            err := [msgParse, msgGather] } :=
  main_aborts_on_parse_failure
    (demoEnv [("/proc/1/stat".toList, statLine "1".toList "(init)".toList),
              ("/proc/2/stat".toList, "2 (cut short) S 1".toList),
              ("/proc/3/stat".toList, statLine "3".toList "(bash)".toList)]
      [⟨true, "1".toList⟩, ⟨false, "4".toList⟩, ⟨true, "2".toList⟩, ⟨true, "3".toList⟩])
    [.z] ⟨"/proc".toList, .pidSort, 1, []⟩
    [⟨true, "1".toList⟩, ⟨false, "4".toList⟩, ⟨true, "2".toList⟩, ⟨true, "3".toList⟩]
    [⟨true, "1".toList⟩] [⟨true, "3".toList⟩] ⟨true, "2".toList⟩
    msgParse rfl rfl (by decide)
    (by
      intro b hb
      simp only [List.mem_singleton] at hb
      subst hb
      exact ⟨"/proc/1/stat".toList, { entryNamed 1 "(init)".toList with ppid := 1 },
        by decide, by decide⟩)
    ⟨"/proc/2/stat".toList, by decide, by decide⟩

/-! ## Sorting by id -/

theorem insertSorted_perm {α : Type} (compar : α → α → Int) (x : α) :
    ∀ l : List α, (insertSorted compar x l).Perm (x :: l)
  | [] => List.Perm.refl _
  | y :: ys => by
    simp only [insertSorted]
    split
    · exact List.Perm.refl _
    · exact ((insertSorted_perm compar x ys).cons y).trans (List.Perm.swap x y ys)

/-- Whatever the comparator, the sorted array holds the entries it held before. -/
theorem qsort_perm {α : Type} (compar : α → α → Int) : ∀ l : List α, (qsort compar l).Perm l
  | [] => List.Perm.refl _
  | x :: xs => by
    simp only [qsort, List.foldr_cons]
    exact (insertSorted_perm compar x _).trans ((qsort_perm compar xs).cons x)

theorem insertSorted_PidSort_sorted (x : ProcEntry) (hx : 0 ≤ x.pid ∧ x.pid ≤ INT_MAX) :
    ∀ l : List ProcEntry, (∀ a ∈ l, 0 ≤ a.pid ∧ a.pid ≤ INT_MAX) →
    l.Pairwise (fun a b => a.pid ≤ b.pid) →
    (insertSorted PidSort x l).Pairwise (fun a b => a.pid ≤ b.pid)
  | [], _, _ => by simp [insertSorted]
  | y :: ys, hr, hs => by
    have hy := hr y (by simp)
    have hsign := PidSort_sign x y (by simp only [INT_MIN, INT_MAX] at *; omega)
      (by simp only [INT_MIN, INT_MAX] at *; omega)
    rw [List.pairwise_cons] at hs
    simp only [insertSorted]
    split
    · rename_i hle
      have hxy : x.pid ≤ y.pid := by
        rcases lt_or_eq_of_le hle with h | h
        · exact le_of_lt (hsign.1.1 h)
        · exact le_of_eq (hsign.2.1.1 h)
      rw [List.pairwise_cons]
      refine ⟨?_, List.pairwise_cons.2 hs⟩
      intro a ha
      simp only [List.mem_cons] at ha
      rcases ha with rfl | ha
      · exact hxy
      · exact le_trans hxy (hs.1 a ha)
    · rename_i hgt
      have hyx : y.pid ≤ x.pid := le_of_lt (hsign.2.2.1 (by omega))
      rw [List.pairwise_cons]
      refine ⟨?_, insertSorted_PidSort_sorted x hx ys (fun a ha => hr a (by simp [ha])) hs.2⟩
      intro a ha
      have := (insertSorted_perm PidSort x ys).mem_iff.1 ha
      simp only [List.mem_cons] at this
      rcases this with rfl | h
      · exact hyx
      · exact hs.1 a h

/-- Sorting with `PidSort` puts ids between 0 and `INT_MAX`, as process ids are, in
non-decreasing order. -/
theorem qsort_PidSort_sorted : ∀ l : List ProcEntry,
    (∀ a ∈ l, 0 ≤ a.pid ∧ a.pid ≤ INT_MAX) →
    (qsort PidSort l).Pairwise (fun a b => a.pid ≤ b.pid)
  | [], _ => by simp [qsort]
  | x :: xs, hr => by
    simp only [qsort, List.foldr_cons]
    refine insertSorted_PidSort_sorted x (hr x (by simp)) _ ?_
      (qsort_PidSort_sorted xs (fun a ha => hr a (by simp [ha])))
    intro a ha
    exact hr a (by simp [(qsort_perm PidSort xs).mem_iff.1 ha])

/-- C7: sorting with `PidSort` does not always give non-decreasing ids. With stat files
whose ids are 2147483647 and -2 the subtraction in `PidSort` overflows, `qsort` keeps
2147483647 in front of -2, and `main` prints the rows in that order. -/
theorem main_prints_overflowing_ids_unsorted :
    main (demoEnv [("/proc/1/stat".toList, statLine "2147483647".toList "(a)".toList),
                   ("/proc/2/stat".toList, statLine "-2".toList "(b)".toList)]
          [⟨true, "1".toList⟩, ⟨true, "2".toList⟩]) [.p] =
      .ok { status := 0,
            out := [header,
              PrintProcEntry 100 (entryNamed 2147483647 "(a)".toList),
              PrintProcEntry 100
                { entryNamed (-2) "(b)".toList with path := "/proc/2/stat".toList }],
            err := [] } ∧
    (qsort PidSort [entryNamed 2147483647 "(a)".toList, entryNamed (-2) "(b)".toList]).map
      (fun e => e.pid) = [2147483647, -2] ∧
    (qsort PidSort [entryNamed (-2) "(b)".toList, entryNamed 2147483647 "(a)".toList]).map
      (fun e => e.pid) = [2147483647, -2] := by
  decide

/-! ## The reporter: errors, header, end to end -/

/-- C11: called with a null collection or with a count of zero or less, `PrintProcs`
writes the message "Error: Attempted to print nothing." to the error stream and nothing
to standard output, neither the header nor a row. -/
theorem PrintProcs_nothing (hz : Nat) (procs : Option (List ProcEntry)) (count zFlag : Int)
    (h : procs = none ∨ count ≤ 0) :
    PrintProcs hz procs count zFlag = .ok { out := [], err := [msgNothing] } := by
  cases procs with
  | none => rfl
  | some ps =>
    rcases h with h | h
    · cases h
    · simp only [PrintProcs, if_pos h]

theorem PrintProcs_nothing_witness :
    PrintProcs 100 none 3 0 = .ok { out := [], err := [msgNothing] } ∧
    PrintProcs 100 (some [entryNamed 1 "(a)".toList]) 0 1 =
      .ok { out := [], err := [msgNothing] } ∧
    PrintProcs 100 (some [entryNamed 1 "(a)".toList]) (-5) 0 =
      .ok { out := [], err := [msgNothing] } :=
  ⟨PrintProcs_nothing 100 none 3 0 (Or.inl rfl),
   PrintProcs_nothing 100 (some [entryNamed 1 "(a)".toList]) 0 1 (Or.inr (by decide)),
   PrintProcs_nothing 100 (some [entryNamed 1 "(a)".toList]) (-5) 0 (Or.inr (by decide))⟩

/-- C12: end to end. Stat files with the ids 50, 3 and 200, sorted with `PidSort`, are
printed in the order 3, 50, 200; in each pair the comparator is negative, so every
comparison sort gives this order. Stat files with the names `(bash)`, `(Zsh)` and
`((weird))`, sorted with `CommSort`, are printed in the order `(Zsh)`, `(bash)`,
`((weird))`: the last name is compared as `(weird))` and printed as `((weird))`. -/
theorem main_end_to_end :
    main envIds [.p] = .ok
      { status := 0,
        out := ["    PID    PPID STATE UTIME STIME THREADS CMD                       STAT_FILE           \n".toList,
                "      3       1     S     0     0       1 (b)                       /proc/3/stat        \n".toList,
                "     50       1     S     0     0       1 (a)                       /proc/50/stat       \n".toList,
                "    200       1     S     0     0       1 (c)                       /proc/200/stat      \n".toList],
        err := [] } ∧
    (PidSort (entryNamed 3 "(b)".toList) (entryNamed 50 "(a)".toList) < 0 ∧
     PidSort (entryNamed 50 "(a)".toList) (entryNamed 200 "(c)".toList) < 0 ∧
     PidSort (entryNamed 3 "(b)".toList) (entryNamed 200 "(c)".toList) < 0) ∧
    main envNames [.c] = .ok
      { status := 0,
        out := ["    PID    PPID STATE UTIME STIME THREADS CMD                       STAT_FILE           \n".toList,
                "      2       1     S     0     0       1 (Zsh)                     /proc/2/stat        \n".toList,
                "      1       1     S     0     0       1 (bash)                    /proc/1/stat        \n".toList,
                "      3       1     S     0     0       1 ((weird))                 /proc/3/stat        \n".toList],
        err := [] } ∧
    (CommSort envNames.junk1 envNames.junk2
        (entryNamed 2 "(Zsh)".toList) (entryNamed 1 "(bash)".toList) < 0 ∧
     CommSort envNames.junk1 envNames.junk2
        (entryNamed 1 "(bash)".toList) (entryNamed 3 "((weird))".toList) < 0 ∧
     CommSort envNames.junk1 envNames.junk2
        (entryNamed 2 "(Zsh)".toList) (entryNamed 3 "((weird))".toList) < 0) ∧
    normName "((weird))".toList = "(weird))".toList ∧
    CommSort envNames.junk1 envNames.junk2
      (entryNamed 3 "((weird))".toList) (entryNamed 4 "(weird))".toList) = 0 := by
  decide

/-- On a non-empty list `PrintProcs` writes the header and then the row of every entry the
filter lets through. -/
theorem PrintProcs_eq (hz : Nat) (procs : List ProcEntry) (zFlag : Int) (hne : procs ≠ []) :
    PrintProcs hz (some procs) procs.length zFlag =
      .ok ⟨header :: ((procs.filter (printed zFlag)).map (PrintProcEntry hz)), []⟩ := by
  have hlen : 0 < procs.length := List.length_pos.2 hne
  have hcount : ¬ ((procs.length : Int) ≤ 0) := by omega
  simp only [PrintProcs, if_neg hcount, Int.toNat_ofNat]
  rw [printLoop_eq hz procs zFlag procs.length 0 [header] (by omega)]
  simp

theorem showInt_chars (v : Int) : ∀ c ∈ showInt v, isdigit c = true ∨ c = '-' := by
  intro c hc
  cases v with
  | ofNat n => exact Or.inl ((showNat_spec n).2.1 c hc)
  | negSucc n =>
    simp only [showInt, List.mem_cons] at hc
    rcases hc with rfl | hc
    · exact Or.inr rfl
    · exact Or.inl ((showNat_spec (n + 1)).2.1 c hc)

theorem mem_padLeft {w : Nat} {t : List Char} {c : Char} (h : c ∈ padLeft w t) :
    c = ' ' ∨ c ∈ t := by
  simp only [padLeft, List.mem_append, List.mem_replicate] at h
  rcases h with h | h
  · exact Or.inl h.2
  · exact Or.inr h

theorem PrintProcEntry_eq_layoutRow (hz : Nat) (e : ProcEntry) :
    PrintProcEntry hz e =
      layoutRow (showInt e.pid) (showInt e.ppid) [e.state] (showNat (e.utime / hz))
        (showNat (e.stime / hz)) (showInt e.num_threads) e.comm e.path := by
  simp [PrintProcEntry, numericColumns, layoutRow]

/-- No row is the header: the fifth character of the header is `P`, that of a row is a
space, a digit or a minus sign. -/
theorem PrintProcEntry_ne_header (hz : Nat) (e : ProcEntry) : PrintProcEntry hz e ≠ header := by
  intro h
  have h4 : (PrintProcEntry hz e)[4]? = some 'P' := by
    rw [h]
    decide
  have hlen : 4 < (padLeft 7 (showInt e.pid)).length := by
    rw [length_padLeft]
    omega
  have hrow : PrintProcEntry hz e = padLeft 7 (showInt e.pid) ++
      (' ' :: padLeft 7 (showInt e.ppid) ++ ' ' :: padLeft 5 [e.state] ++ ' ' ::
        padLeft 5 (showNat (e.utime / hz)) ++ ' ' :: padLeft 5 (showNat (e.stime / hz)) ++
        ' ' :: padLeft 7 (showInt e.num_threads) ++ [' '] ++ padRight 25 e.comm ++
        ' ' :: padRight 20 e.path ++ ['\n']) := by
    simp [PrintProcEntry, numericColumns]
  rw [hrow, List.getElem?_append_left hlen] at h4
  have hmem : 'P' ∈ padLeft 7 (showInt e.pid) := List.getElem?_mem h4
  rcases mem_padLeft hmem with h' | h'
  · exact absurd h' (by decide)
  · rcases showInt_chars e.pid 'P' h' with h'' | h''
    · exact absurd h'' (by decide)
    · exact absurd h'' (by decide)

/-- C16: for a non-empty list the first line `PrintProcs` writes is the header, the
titles PID, PPID, STATE, UTIME, STIME, THREADS, CMD and STAT_FILE laid out like the cells
of a row of `PrintProcEntry`; no later line is the header, so it is written once, and it
is the only line when the zombie filter lets no entry through. -/
theorem PrintProcs_header (hz : Nat) (procs : List ProcEntry) (zFlag : Int)
    (hne : procs ≠ []) :
    ∃ rows : List (List Char),
      PrintProcs hz (some procs) procs.length zFlag = .ok ⟨header :: rows, []⟩ ∧
      header ∉ rows ∧
      (zFlag ≠ 0 → (∀ p ∈ procs, p.state ≠ 'Z') → rows = []) ∧
      header = layoutRow "PID".toList "PPID".toList "STATE".toList "UTIME".toList
        "STIME".toList "THREADS".toList "CMD".toList "STAT_FILE".toList ∧
      (∀ e : ProcEntry, PrintProcEntry hz e =
        layoutRow (showInt e.pid) (showInt e.ppid) [e.state] (showNat (e.utime / hz))
          (showNat (e.stime / hz)) (showInt e.num_threads) e.comm e.path) ∧
      header =
        "    PID    PPID STATE UTIME STIME THREADS CMD                       STAT_FILE           \n".toList := by
  refine ⟨(procs.filter (printed zFlag)).map (PrintProcEntry hz),
    PrintProcs_eq hz procs zFlag hne, ?_, ?_, by decide, PrintProcEntry_eq_layoutRow hz,
    by decide⟩
  · intro hmem
    obtain ⟨e, _, he⟩ := List.mem_map.1 hmem
    exact PrintProcEntry_ne_header hz e he
  · intro hz0 hall
    have : procs.filter (printed zFlag) = [] := by
      rw [List.filter_eq_nil_iff]
      intro p hp
      simp [printed, hz0, hall p hp]
    rw [this, List.map_nil]

theorem PrintProcs_header_witness :
    ∃ rows : List (List Char),
      PrintProcs 100 (some [entryNamed 1 "(a)".toList, entryNamed 2 "(b)".toList])
        ([entryNamed 1 "(a)".toList, entryNamed 2 "(b)".toList].length : Nat) 1 =
        .ok ⟨header :: rows, []⟩ ∧
      header ∉ rows ∧
      ((1 : Int) ≠ 0 → (∀ p ∈ [entryNamed 1 "(a)".toList, entryNamed 2 "(b)".toList],
        p.state ≠ 'Z') → rows = []) ∧
      header = layoutRow "PID".toList "PPID".toList "STATE".toList "UTIME".toList
        "STIME".toList "THREADS".toList "CMD".toList "STAT_FILE".toList ∧
      (∀ e : ProcEntry, PrintProcEntry 100 e =
        layoutRow (showInt e.pid) (showInt e.ppid) [e.state] (showNat (e.utime / 100))
          (showNat (e.stime / 100)) (showInt e.num_threads) e.comm e.path) ∧
      header =
        "    PID    PPID STATE UTIME STIME THREADS CMD                       STAT_FILE           \n".toList :=
  PrintProcs_header 100 [entryNamed 1 "(a)".toList, entryNamed 2 "(b)".toList] 1 (by decide)

/-! ## What a successful parse tells -/

theorem bind_eq_ok {α β : Type} {x : Res α} {f : α → Res β} {v : β}
    (h : x.bind f = .ok v) : ∃ a, x = .ok a ∧ f a = .ok v := by
  cases x with
  | ok a => exact ⟨a, rfl, h⟩
  | null msg => simp [Res.bind] at h
  | undefined => simp [Res.bind] at h
  | outOfFuel => simp [Res.bind] at h

theorem expect_eq_ok {α : Type} {msg : List Char} {s : Scan α} {v : α} {r : List Char}
    (h : expect msg s = .ok (v, r)) : s = .ok v r := by
  cases s with
  | ok v' r' =>
    simp only [expect, Res.ok.injEq, Prod.mk.injEq] at h
    rw [h.1, h.2]
  | fail => simp [expect] at h
  | undefined => simp [expect] at h

/-- Every conversion of a successful call succeeded, one after the other. -/
theorem parse_ok_inv {fs : List Char → Option (List Char)} {statFile : Option (List Char)}
    {e : ProcEntry} (h : CreateProcEntryFromFile fs statFile = .ok e) :
    ∃ path inp r1 comm0 r2 r3 r4 r5 r6 r7 r8 r9 r10,
      statFile = some path ∧ fs path = some inp ∧ e.path = path ∧ path.length ≤ 99 ∧
      scanInt INT_MIN INT_MAX inp = .ok e.pid r1 ∧
      scanStr MAX_STR_SIZE r1 = .ok comm0 r2 ∧
      nameLoop path (r2.length + 1) comm0 r2 = .ok (e.comm, r3) ∧
      scanChar r3 = .ok e.state r4 ∧
      scanInt INT_MIN INT_MAX r4 = .ok e.ppid r5 ∧
      skipInts 9 r5 = .ok () r6 ∧
      scanULong r6 = .ok e.utime r7 ∧
      scanULong r7 = .ok e.stime r8 ∧
      skipInts 4 r8 = .ok () r9 ∧
      scanInt LONG_MIN LONG_MAX r9 = .ok e.num_threads r10 := by
  unfold CreateProcEntryFromFile at h
  cases statFile with
  | none => simp at h
  | some path =>
    simp only at h
    cases hfs : fs path with
    | none => simp [hfs] at h
    | some inp =>
      simp only [hfs, bind] at h
      obtain ⟨⟨pid, r1⟩, h1, h⟩ := bind_eq_ok h
      obtain ⟨⟨comm0, r2⟩, h2, h⟩ := bind_eq_ok h
      obtain ⟨⟨comm, r3⟩, h3, h⟩ := bind_eq_ok h
      obtain ⟨⟨state, r4⟩, h4, h⟩ := bind_eq_ok h
      obtain ⟨⟨ppid, r5⟩, h5, h⟩ := bind_eq_ok h
      obtain ⟨⟨u6, r6⟩, h6, h⟩ := bind_eq_ok h
      obtain ⟨⟨utime, r7⟩, h7, h⟩ := bind_eq_ok h
      obtain ⟨⟨stime, r8⟩, h8, h⟩ := bind_eq_ok h
      obtain ⟨⟨u9, r9⟩, h9, h⟩ := bind_eq_ok h
      obtain ⟨⟨numThreads, r10⟩, h10, h⟩ := bind_eq_ok h
      simp only at h
      split at h
      · cases h
      · rename_i hfit
        simp only [Res.ok.injEq] at h
        subst h
        simp only [MAX_STR_SIZE] at hfit
        exact ⟨path, inp, r1, comm0, r2, r3, r4, r5, r6, r7, r8, r9, r10, rfl, hfs, rfl,
          by omega, expect_eq_ok h1, expect_eq_ok h2, h3, expect_eq_ok h4, expect_eq_ok h5,
          expect_eq_ok h6, expect_eq_ok h7, expect_eq_ok h8, expect_eq_ok h9,
          expect_eq_ok h10⟩

theorem scanInt_ok_range {lo hi : Int} {inp r : List Char} {v : Int}
    (h : scanInt lo hi inp = .ok v r) : lo ≤ v ∧ v ≤ hi := by
  unfold scanInt at h
  cases hn : scanNum inp with
  | none => simp [hn] at h
  | some p =>
    obtain ⟨neg, m, rest⟩ := p
    rw [hn] at h
    dsimp only at h
    by_cases hr : lo ≤ (if neg = true then -(m : Int) else (m : Int)) ∧
        (if neg = true then -(m : Int) else (m : Int)) ≤ hi
    · rw [if_pos hr] at h
      simp only [Scan.ok.injEq] at h
      rw [← h.1]
      exact hr
    · rw [if_neg hr] at h
      cases h

theorem mem_cstr {t : List Char} {c : Char} (h : c ∈ cstr t) : c ∈ t :=
  List.takeWhile_subset _ h

theorem length_cstr_le (t : List Char) : (cstr t).length ≤ t.length :=
  (List.takeWhile_sublist _).length_le

/-- What `%s` stores fits the buffer and holds no white space. -/
theorem scanStr_ok_spec {cap : Nat} {inp v r : List Char} (h : scanStr cap inp = .ok v r) :
    v.length + 1 ≤ cap ∧ ∀ c ∈ v, isspace c = false := by
  unfold scanStr at h
  simp only at h
  split at h
  · cases h
  · split at h
    · cases h
    · rename_i hcap
      simp only [Scan.ok.injEq] at h
      rw [← h.1]
      constructor
      · have := length_cstr_le (List.takeWhile (fun c => !isspace c) (skipSpace inp))
        omega
      · intro c hc
        have := List.mem_takeWhile_imp (mem_cstr hc)
        simpa using this

theorem noClosedPiece_of_no_space {comm : List Char} (h : ∀ c ∈ comm, isspace c = false) :
    NoClosedPiece comm := by
  intro pre suf e
  have := h ' ' (by rw [e]; simp)
  exact absurd this (by decide)

theorem noClosedPiece_append {comm t : List Char} (hk : NoClosedPiece comm)
    (hc : endsClose comm = false) (ht : ∀ c ∈ t, isspace c = false) :
    NoClosedPiece (comm ++ ' ' :: t) := by
  intro pre suf e
  rcases List.append_eq_append_iff.1 e with ⟨a, h1, h2⟩ | ⟨a, h1, h2⟩
  · cases a with
    | nil =>
      rw [h1, List.append_nil]
      exact hc
    | cons x a =>
      simp only [List.cons_append, List.cons.injEq] at h2
      have := ht ' ' (by rw [h2.2]; simp)
      exact absurd this (by decide)
  · cases a with
    | nil =>
      rw [List.append_nil] at h1
      rw [← h1]
      exact hc
    | cons x a =>
      simp only [List.cons_append, List.cons.injEq] at h2
      rw [← h2.1] at h1
      exact hk pre a h1

/-- What the name loop returns: a non-empty name of at most 99 bytes that ends with `)`
and has no earlier piece ending with `)`. -/
theorem nameLoop_ok_spec (statFile : List Char) (fuel : Nat) :
    ∀ (comm inp comm' rest : List Char),
    nameLoop statFile fuel comm inp = .ok (comm', rest) →
    comm.length ≤ 99 → NoClosedPiece comm →
    comm' ≠ [] ∧ endsClose comm' = true ∧ comm'.length ≤ 99 ∧ NoClosedPiece comm' := by
  induction fuel with
  | zero => intro comm inp comm' rest h; simp [nameLoop] at h
  | succ fuel ih =>
    intro comm inp comm' rest h hlen hk
    rw [nameLoop] at h
    cases hl : comm.getLast? with
    | none => simp [hl] at h
    | some last =>
      simp only [hl] at h
      by_cases hlast : last = ')'
      · rw [if_pos hlast] at h
        simp only [Res.ok.injEq, Prod.mk.injEq] at h
        rw [← h.1]
        refine ⟨?_, by simp [endsClose, hl, hlast], hlen, hk⟩
        intro e
        simp [e] at hl
      · rw [if_neg hlast] at h
        cases hs : scanStr 20 inp with
        | fail => simp [hs, expect] at h
        | undefined => simp [hs, expect] at h
        | ok temp r1 =>
          simp only [hs, expect] at h
          split at h
          · cases h
          · rename_i hfit
            simp only [MAX_STR_SIZE] at hfit
            have hopen : endsClose comm = false := by simp [endsClose, hl, hlast]
            exact ih _ _ _ _ h (by simp only [List.length_append, List.length_cons]; omega)
              (noClosedPiece_append hk hopen (scanStr_ok_spec hs).2)

theorem scanInt_tokens_of_ok {lo hi : Int} {inp r : List Char} {v w : Int}
    {ts : List (List Char)} (ht : tokens inp = showInt v :: ts)
    (h : scanInt lo hi inp = .ok w r) : w = v ∧ tokens r = ts := by
  obtain ⟨hlo, hhi⟩ := scanInt_ok_range h
  have key : ∀ r', scanInt lo hi inp = .ok v r' → tokens r' = ts → w = v ∧ tokens r = ts := by
    intro r' h' ht'
    rw [h'] at h
    simp only [Scan.ok.injEq] at h
    rw [← h.1, ← h.2]
    exact ⟨rfl, ht'⟩
  have hsame : ∀ (neg : Bool) (m : Nat) (r' : List Char),
      scanNum inp = some (neg, m, r') → (if neg = true then -(m : Int) else (m : Int)) = v →
      scanInt lo hi inp = .ok v r' := by
    intro neg m r' hn hv
    unfold scanInt at h ⊢
    rw [hn] at h ⊢
    dsimp only at h ⊢
    rw [hv] at h ⊢
    by_cases hr : lo ≤ v ∧ v ≤ hi
    · rw [if_pos hr]
    · rw [if_neg hr] at h
      cases h
  cases v with
  | ofNat n =>
    obtain ⟨r', h1, h2, _⟩ := scanNum_showNat (n := n) ht
    exact key r' (hsame false n r' h1 (by simp)) h2
  | negSucc n =>
    obtain ⟨r', h1, h2, _⟩ := scanNum_minus (n := n + 1) ht
    exact key r' (hsame true (n + 1) r' h1 (by rw [if_pos rfl]; rfl)) h2

theorem scanStr_tokens_of_ok {cap : Nat} {inp t v r : List Char} {ts : List (List Char)}
    (ht : tokens inp = t :: ts) (h : scanStr cap inp = .ok v r) :
    v = cstr t ∧ tokens r = ts ∧ r.length < inp.length := by
  obtain ⟨r', h1, h2, h3, _⟩ := scanStr_tokens cap ht
  rw [h1] at h
  split at h
  · cases h
  · simp only [Scan.ok.injEq] at h
    rw [← h.1, ← h.2]
    exact ⟨rfl, h2, h3⟩

/-- When the name loop returns, it has joined the pieces up to the first one that ends
with `)` and left the tokens after it unread. -/
theorem nameLoop_tokens_of_ok (statFile : List Char) (pieces : List (List Char)) :
    ∀ (comm inp : List Char) (fuel : Nat) (ts : List (List Char)) (comm' rest : List Char),
    tokens inp = pieces ++ ts → comm ≠ [] → onlyLastCloses (comm :: pieces) = true →
    (∀ t ∈ pieces, ∀ c ∈ t, c ≠ NUL) →
    nameLoop statFile fuel comm inp = .ok (comm', rest) →
    comm' = joinSp comm pieces ∧ tokens rest = ts := by
  induction pieces with
  | nil =>
    intro comm inp fuel ts comm' rest h _ hc _ hrun
    have hl : comm.getLast? = some ')' := by simpa [onlyLastCloses, endsClose] using hc
    cases fuel with
    | zero => simp [nameLoop] at hrun
    | succ fuel =>
      simp only [nameLoop, hl, if_true, Res.ok.injEq, Prod.mk.injEq] at hrun
      rw [← hrun.1, ← hrun.2]
      exact ⟨by simp [joinSp], by simpa using h⟩
  | cons t ps ih =>
    intro comm inp fuel ts comm' rest h hne hc hnul hrun
    have ht : tokens inp = t :: (ps ++ ts) := by simpa using h
    have htne := tokens_ne_nil ht
    simp only [onlyLastCloses, Bool.and_eq_true, Bool.not_eq_true'] at hc
    obtain ⟨last, hlast⟩ : ∃ last, comm.getLast? = some last := by
      cases hg : comm.getLast? with
      | none => exact absurd (List.getLast?_eq_none_iff.1 hg) hne
      | some l => exact ⟨l, rfl⟩
    have hlast' : last ≠ ')' := by
      intro e
      have := hc.1
      simp [endsClose, hlast, e] at this
    cases fuel with
    | zero => simp [nameLoop] at hrun
    | succ fuel =>
      rw [nameLoop, hlast] at hrun
      simp only [if_neg hlast'] at hrun
      cases hs : scanStr 20 inp with
      | fail => simp [hs, expect] at hrun
      | undefined => simp [hs, expect] at hrun
      | ok temp r1 =>
        obtain ⟨e1, e2, _⟩ := scanStr_tokens_of_ok ht hs
        rw [cstr_of_no_NUL (hnul t (by simp))] at e1
        subst e1
        simp only [hs, expect] at hrun
        split at hrun
        · cases hrun
        · have := ih (comm ++ ' ' :: temp) r1 fuel ts comm' rest e2 (by simp)
            (by rw [onlyLastCloses_congr (endsClose_append_piece comm htne)]; exact hc.2)
            (fun x hx => hnul x (by simp [hx])) hrun
          simpa [joinSp] using this

theorem scanChar_tokens_head {inp w : List Char} {c : Char} {ts : List (List Char)}
    (h : tokens inp = (c :: w) :: ts) : ∃ rest, scanChar inp = .ok c rest := by
  obtain ⟨rest, h1, _⟩ := (tokens_skipSpace inp).2 _ ts h
  exact ⟨w ++ rest, by simp [scanChar, h1]⟩

/-- The name a successful call stores: non-empty, at most 99 bytes, ending with `)`, no
earlier piece ending with `)`. -/
theorem parse_ok_comm {fs : List Char → Option (List Char)} {statFile : Option (List Char)}
    {e : ProcEntry} (h : CreateProcEntryFromFile fs statFile = .ok e) :
    e.comm ≠ [] ∧ endsClose e.comm = true ∧ e.comm.length ≤ 99 ∧ NoClosedPiece e.comm := by
  obtain ⟨path, inp, r1, comm0, r2, r3, r4, r5, r6, r7, r8, r9, r10, _, _, _, _, _, h2, h3,
    _⟩ := parse_ok_inv h
  have hs := scanStr_ok_spec h2
  simp only [MAX_STR_SIZE] at hs
  exact nameLoop_ok_spec path _ _ _ _ _ h3 (by omega) (noClosedPiece_of_no_space hs.2)

/-- C13 (as stated, refuted): a stat file whose first field is -2 is parsed successfully
into an entry with `pid = -2`; the parser does not check the sign of the id. -/
theorem CreateProcEntryFromFile_negative_id_accepted :
    CreateProcEntryFromFile (fun _ => some (statLine "-2".toList "(b)".toList))
        (some "/proc/1/stat".toList) = .ok (entryNamed (-2) "(b)".toList) ∧
    (entryNamed (-2) "(b)".toList).pid < 0 := by
  decide

/-- A name of 100 bytes does not fit `comm[100]` with its terminator: the unbounded `%s`
of the first `fscanf` writes past the end of the buffer, and no entry is promised. The
same name with one byte less is stored whole. -/
theorem CreateProcEntryFromFile_long_name_overruns_comm :
    CreateProcEntryFromFile
        (fun _ => some (statLine "42".toList ('(' :: List.replicate 98 'a' ++ [')'])))
        (some "/proc/1/stat".toList) = .undefined ∧
    CreateProcEntryFromFile
        (fun _ => some (statLine "42".toList ('(' :: List.replicate 97 'a' ++ [')'])))
        (some "/proc/1/stat".toList) =
      .ok (entryNamed 42 ('(' :: List.replicate 97 'a' ++ [')'])) := by
  decide

/-- C13 (amended): every entry a successful `CreateProcEntryFromFile` returns has an id
that is an `int`, of either sign, and a non-empty `comm`. -/
theorem CreateProcEntryFromFile_entry_invariants (fs : List Char → Option (List Char))
    (statFile : Option (List Char)) (e : ProcEntry)
    (h : CreateProcEntryFromFile fs statFile = .ok e) :
    (INT_MIN ≤ e.pid ∧ e.pid ≤ INT_MAX) ∧ e.comm ≠ [] := by
  obtain ⟨path, inp, r1, comm0, r2, r3, r4, r5, r6, r7, r8, r9, r10, _, _, _, _, h1, _⟩ :=
    parse_ok_inv h
  exact ⟨scanInt_ok_range h1, (parse_ok_comm h).1⟩

theorem CreateProcEntryFromFile_entry_invariants_witness :
    (INT_MIN ≤ (entryNamed (-2) "(b)".toList).pid ∧
      (entryNamed (-2) "(b)".toList).pid ≤ INT_MAX) ∧
    (entryNamed (-2) "(b)".toList).comm ≠ [] :=
  CreateProcEntryFromFile_entry_invariants
    (fun _ => some (statLine "-2".toList "(b)".toList)) (some "/proc/1/stat".toList)
    (entryNamed (-2) "(b)".toList) (by decide)

/-- C19: the `comm` of every entry a successful `CreateProcEntryFromFile` returns ends
with `)`; and a record whose tokens after the id are name pieces none of which ends with
`)` makes the call return `NULL`, not an entry. -/
theorem CreateProcEntryFromFile_name_closed (fs : List Char → Option (List Char)) :
    (∀ (statFile : Option (List Char)) (e : ProcEntry),
      CreateProcEntryFromFile fs statFile = .ok e → e.comm.getLast? = some ')') ∧
    (∀ (path inp : List Char) (id : Int) (t : List Char) (more : List (List Char)),
      fs path = some inp → tokens inp = showInt id :: t :: more →
      INT_MIN ≤ id ∧ id ≤ INT_MAX → NameFits (t :: more) → noneCloses (t :: more) = true →
      CreateProcEntryFromFile fs (some path) = .null (msgRead path)) := by
  constructor
  · intro statFile e h
    have := (parse_ok_comm h).2.1
    simpa [endsClose] using this
  · intro path inp id t more hopen htok hid hname hnone
    obtain ⟨hnul, hmore, hlen⟩ := hname
    obtain ⟨r1, e1, k1, _⟩ := scanInt_tokens _ _ htok hid.1 hid.2
    have htne := tokens_ne_nil k1
    have htlen := length_le_joinSp more t
    obtain ⟨r2, e2, k2, _, _⟩ := scanStr_tokens MAX_STR_SIZE k1
    rw [if_neg (by simp only [MAX_STR_SIZE]; omega), cstr_of_no_NUL hnul] at e2
    simp only [noneCloses, List.all_cons, Bool.and_eq_true, Bool.not_eq_true'] at hnone
    have e3 := nameLoop_short path more t r2 (r2.length + 1) k2 htne hnone.1
      (by simpa [noneCloses] using hnone.2) hmore hlen (by omega)
    simp only [CreateProcEntryFromFile, hopen, bind, Res.bind, expect, e1, e2, e3]

theorem CreateProcEntryFromFile_name_closed_witness :
    (entryNamed 42 "(tmux: server)".toList).comm.getLast? = some ')' ∧
    CreateProcEntryFromFile (fun _ => some "42 (tmux: server S 1 0 0".toList)
      (some "/proc/42/stat".toList) = .null (msgRead "/proc/42/stat".toList) :=
  ⟨(CreateProcEntryFromFile_name_closed
      (fun _ => some (statLine "42".toList "(tmux: server)".toList))).1
      (some "/proc/1/stat".toList) (entryNamed 42 "(tmux: server)".toList) (by decide),
   (CreateProcEntryFromFile_name_closed (fun _ => some "42 (tmux: server S 1 0 0".toList)).2
      "/proc/42/stat".toList "42 (tmux: server S 1 0 0".toList 42 "(tmux:".toList
      ["server".toList, "S".toList, "1".toList, "0".toList, "0".toList]
      rfl (by decide) (by decide) (by decide) (by decide)⟩

/-- C20: the parser ends the name at the first piece that ends with `)`. When the tokens
of a record are the id, pieces of which the last and no other ends with `)`, and any
further tokens, a successful call stores the id, stores in `comm` exactly those pieces
joined by single spaces, and takes the first character of the token after them as the
state: what follows the first closing piece is read as fields, never as name. In
general no `comm` returned has a piece ending with `)` before its last piece. -/
theorem CreateProcEntryFromFile_name_ends_at_first_close
    (fs : List Char → Option (List Char)) (statFile : Option (List Char)) (e : ProcEntry)
    (h : CreateProcEntryFromFile fs statFile = .ok e) :
    NoClosedPiece e.comm ∧
    ∀ (path inp : List Char) (id : Int) (pieces ts : List (List Char)),
      statFile = some path → fs path = some inp → tokens inp = showInt id :: pieces ++ ts →
      onlyLastCloses pieces = true → (∀ t ∈ pieces, ∀ c ∈ t, c ≠ NUL) →
      e.pid = id ∧ e.comm = [' '].intercalate pieces ∧
      (∀ (c : Char) (w : List Char) (ts' : List (List Char)), ts = (c :: w) :: ts' →
        e.state = c) ∧
      (∀ (c : Char) (p : Int) (ts' : List (List Char)), ts = [c] :: showInt p :: ts' →
        e.state = c ∧ e.ppid = p) := by
  refine ⟨(parse_ok_comm h).2.2.2, ?_⟩
  intro path inp id pieces ts hsf hopen htok hclose hnul
  obtain ⟨path', inp', r1, comm0, r2, r3, r4, r5, r6, r7, r8, r9, r10, hsf', hopen', _, _,
    h1, h2, h3, h4, h5, _⟩ := parse_ok_inv h
  rw [hsf] at hsf'
  simp only [Option.some.injEq] at hsf'
  subst hsf'
  rw [hopen] at hopen'
  simp only [Option.some.injEq] at hopen'
  subst hopen'
  cases pieces with
  | nil => simp [onlyLastCloses] at hclose
  | cons t more =>
    simp only [List.cons_append] at htok
    obtain ⟨hid, k1⟩ := scanInt_tokens_of_ok htok h1
    have htne := tokens_ne_nil k1
    obtain ⟨hc0, k2, _⟩ := scanStr_tokens_of_ok k1 h2
    rw [cstr_of_no_NUL (hnul t (by simp))] at hc0
    subst hc0
    obtain ⟨hcomm, k3⟩ := nameLoop_tokens_of_ok path more comm0 r2 _ ts _ _ k2 htne hclose
      (fun x hx => hnul x (by simp [hx])) h3
    refine ⟨hid, by rw [hcomm, joinSp_eq_intercalate], ?_, ?_⟩
    · intro c w ts' hts
      rw [hts] at k3
      obtain ⟨rest, hsc⟩ := scanChar_tokens_head k3
      rw [hsc] at h4
      simp only [Scan.ok.injEq] at h4
      exact h4.1.symm
    · intro c p ts' hts
      rw [hts] at k3
      obtain ⟨rest, hsc, k4, _⟩ := scanChar_tokens k3
      rw [hsc] at h4
      simp only [Scan.ok.injEq] at h4
      rw [← h4.2] at h5
      exact ⟨h4.1.symm, (scanInt_tokens_of_ok k4 h5).1⟩

theorem CreateProcEntryFromFile_name_ends_at_first_close_witness :
    CreateProcEntryFromFile (fun _ => some injectedLine) (some "/proc/42/stat".toList) =
      .ok injectedEntry ∧
    injectedEntry.pid = 42 ∧ injectedEntry.comm = [' '].intercalate ["(x".toList, "y)".toList] ∧
    injectedEntry.state = 'T' ∧ injectedEntry.ppid = 5 :=
  have h : CreateProcEntryFromFile (fun _ => some injectedLine)
      (some "/proc/42/stat".toList) = .ok injectedEntry := by decide
  have k := (CreateProcEntryFromFile_name_ends_at_first_close (fun _ => some injectedLine)
    (some "/proc/42/stat".toList) injectedEntry h).2 "/proc/42/stat".toList injectedLine 42
    ["(x".toList, "y)".toList] (List.drop 3 (tokens injectedLine)) rfl rfl (by decide)
    (by decide) (by decide)
  ⟨h, k.1, k.2.1, k.2.2.1 'T' [] (List.drop 4 (tokens injectedLine)) (by decide),
    (k.2.2.2 'T' 5 (List.drop 5 (tokens injectedLine)) (by decide)).2⟩

/-! ## What follows the last field does not matter -/

theorem takeWhile_append_boundary {p : Char → Bool} (s : List Char) {t : List Char}
    (ht : ∀ c, t.head? = some c → p c = false) :
    (s ++ t).takeWhile p = s.takeWhile p ∧ (s ++ t).dropWhile p = s.dropWhile p ++ t := by
  induction s with
  | nil =>
    cases t with
    | nil => simp
    | cons c cs =>
      have := ht c (by simp)
      simp [List.takeWhile, List.dropWhile, this]
  | cons a s ih =>
    cases ha : p a with
    | true => simp [List.takeWhile, List.dropWhile, ha, ih.1, ih.2]
    | false => simp [List.takeWhile, List.dropWhile, ha]

theorem skipSpace_append {x : List Char} (t : List Char) (h : skipSpace x ≠ []) :
    skipSpace (x ++ t) = skipSpace x ++ t := by
  induction x with
  | nil => simp [skipSpace] at h
  | cons c cs ih =>
    cases hc : isspace c with
    | true =>
      rw [skipSpace_cons_space hc] at h ⊢
      rw [List.cons_append, skipSpace_cons_space hc]
      exact ih h
    | false =>
      rw [List.cons_append, skipSpace_cons_nonspace hc, skipSpace_cons_nonspace hc,
        List.cons_append]

theorem scanStr_append {cap : Nat} {x v r : List Char} (t : List Char)
    (h : scanStr cap x = .ok v r) (ht : Boundary t) :
    scanStr cap (x ++ t) = .ok v (r ++ t) := by
  have hs : skipSpace x ≠ [] := by
    intro e
    simp [scanStr, e] at h
  have hsplit := takeWhile_append_boundary (p := fun c => !isspace c) (skipSpace x) (t := t)
    (fun c hc => by simp [ht c hc])
  unfold scanStr at h ⊢
  simp only [skipSpace_append t hs, hsplit.1, hsplit.2] at h ⊢
  split at h
  · cases h
  · rename_i h1
    rw [if_neg h1]
    split at h
    · cases h
    · rename_i h2
      rw [if_neg h2]
      simp only [Scan.ok.injEq] at h ⊢
      exact ⟨h.1, by rw [h.2]⟩

theorem scanChar_append {x r : List Char} {c : Char} (t : List Char)
    (h : scanChar x = .ok c r) : scanChar (x ++ t) = .ok c (r ++ t) := by
  have hs : skipSpace x ≠ [] := by
    intro e
    simp [scanChar, e] at h
  unfold scanChar at h ⊢
  rw [skipSpace_append t hs]
  cases hx : skipSpace x with
  | nil => exact absurd hx hs
  | cons d ds =>
    rw [hx] at h
    simp only [Scan.ok.injEq] at h
    simp [h.1, h.2]

theorem sign_append (s t : List Char) (hs : s ≠ []) :
    (match s ++ t with
      | '-' :: u => (true, u)
      | '+' :: u => (false, u)
      | _ => (false, s ++ t)) =
    ((match s with
      | '-' :: u => (true, u)
      | '+' :: u => (false, u)
      | _ => (false, s)).1,
     (match s with
      | '-' :: u => (true, u)
      | '+' :: u => (false, u)
      | _ => (false, s)).2 ++ t) := by
  obtain ⟨c, s', rfl⟩ := List.exists_cons_of_ne_nil hs
  by_cases h1 : c = '-'
  · subst h1; rfl
  · by_cases h2 : c = '+'
    · subst h2; rfl
    · have e1 : (match (c :: s') ++ t with
          | '-' :: u => (true, u)
          | '+' :: u => (false, u)
          | _ => (false, (c :: s') ++ t)) = (false, (c :: s') ++ t) := by
        split
        · rename_i heq; simp only [List.cons_append, List.cons.injEq] at heq
          exact absurd heq.1 h1
        · rename_i heq; simp only [List.cons_append, List.cons.injEq] at heq
          exact absurd heq.1 h2
        · rfl
      have e2 : (match c :: s' with
          | '-' :: u => (true, u)
          | '+' :: u => (false, u)
          | _ => (false, c :: s')) = (false, c :: s') := by
        split
        · rename_i heq; simp only [List.cons.injEq] at heq
          exact absurd heq.1 h1
        · rename_i heq; simp only [List.cons.injEq] at heq
          exact absurd heq.1 h2
        · rfl
      rw [e1, e2]

theorem scanNum_append {x r : List Char} {neg : Bool} {m : Nat} (t : List Char)
    (h : scanNum x = some (neg, m, r)) (ht : Boundary t) :
    scanNum (x ++ t) = some (neg, m, r ++ t) := by
  have hs : skipSpace x ≠ [] := by
    intro e
    simp [scanNum, e] at h
  unfold scanNum at h ⊢
  simp only [skipSpace_append t hs, sign_append _ t hs] at h ⊢
  generalize (match skipSpace x with
      | '-' :: u => (true, u)
      | '+' :: u => (false, u)
      | _ => (false, skipSpace x)) = sg at h ⊢
  have hsplit := takeWhile_append_boundary (p := isdigit) sg.2 (t := t)
    (fun c hc => isdigit_of_isspace (ht c hc))
  simp only [hsplit.1, hsplit.2]
  split at h
  · cases h
  · rename_i h1
    rw [if_neg h1]
    simp only [Option.some.injEq, Prod.mk.injEq] at h ⊢
    exact ⟨h.1, h.2.1, by rw [h.2.2]⟩

theorem scanInt_append {lo hi : Int} {x r : List Char} {v : Int} (t : List Char)
    (h : scanInt lo hi x = .ok v r) (ht : Boundary t) :
    scanInt lo hi (x ++ t) = .ok v (r ++ t) := by
  unfold scanInt at h ⊢
  cases hn : scanNum x with
  | none => simp [hn] at h
  | some p =>
    obtain ⟨neg, m, r'⟩ := p
    rw [hn] at h
    rw [scanNum_append t hn ht]
    dsimp only at h ⊢
    by_cases hr : lo ≤ (if neg = true then -(m : Int) else (m : Int)) ∧
        (if neg = true then -(m : Int) else (m : Int)) ≤ hi
    · rw [if_pos hr] at h ⊢
      simp only [Scan.ok.injEq] at h ⊢
      exact ⟨h.1, by rw [h.2]⟩
    · rw [if_neg hr] at h
      cases h

theorem scanULong_append {x r : List Char} {v : Nat} (t : List Char)
    (h : scanULong x = .ok v r) (ht : Boundary t) :
    scanULong (x ++ t) = .ok v (r ++ t) := by
  unfold scanULong at h ⊢
  cases hn : scanNum x with
  | none => simp [hn] at h
  | some p =>
    obtain ⟨neg, m, r'⟩ := p
    rw [hn] at h
    rw [scanNum_append t hn ht]
    dsimp only at h ⊢
    split at h
    · rename_i hr
      rw [if_pos hr]
      simp only [Scan.ok.injEq] at h ⊢
      exact ⟨h.1, by rw [h.2]⟩
    · cases h

theorem skipInts_append (n : Nat) : ∀ {x r : List Char} (t : List Char),
    skipInts n x = .ok () r → Boundary t → skipInts n (x ++ t) = .ok () (r ++ t) := by
  induction n with
  | zero =>
    intro x r t h _
    simp only [skipInts, Scan.ok.injEq, true_and] at h ⊢
    rw [h]
  | succ n ih =>
    intro x r t h ht
    rw [skipInts] at h ⊢
    cases hs : scanInt INT_MIN INT_MAX x with
    | fail => simp [hs] at h
    | undefined => simp [hs] at h
    | ok v r1 =>
      rw [hs] at h
      rw [scanInt_append t hs ht]
      exact ih t h ht

theorem nameLoop_append (statFile : List Char) (fuel : Nat) :
    ∀ {comm inp comm' rest : List Char} (t : List Char),
    nameLoop statFile fuel comm inp = .ok (comm', rest) → Boundary t →
    nameLoop statFile fuel comm (inp ++ t) = .ok (comm', rest ++ t) := by
  induction fuel with
  | zero => intro comm inp comm' rest t h; simp [nameLoop] at h
  | succ fuel ih =>
    intro comm inp comm' rest t h ht
    rw [nameLoop] at h ⊢
    cases hl : comm.getLast? with
    | none => simp [hl] at h
    | some last =>
      simp only [hl] at h ⊢
      by_cases hlast : last = ')'
      · rw [if_pos hlast] at h ⊢
        simp only [Res.ok.injEq, Prod.mk.injEq] at h ⊢
        exact ⟨h.1, by rw [h.2]⟩
      · rw [if_neg hlast] at h ⊢
        cases hs : scanStr 20 inp with
        | fail => simp [hs, expect] at h
        | undefined => simp [hs, expect] at h
        | ok temp r1 =>
          simp only [hs, expect] at h
          simp only [scanStr_append t hs ht, expect]
          split at h
          · cases h
          · rename_i hfit
            rw [if_neg hfit]
            exact ih t h ht

/-- More steps than needed do not change what the name loop returns. -/
theorem nameLoop_fuel_mono (statFile : List Char) (fuel : Nat) :
    ∀ {comm inp : List Char} {v : List Char × List Char} (more : Nat),
    nameLoop statFile fuel comm inp = .ok v →
    nameLoop statFile (fuel + more) comm inp = .ok v := by
  induction fuel with
  | zero => intro comm inp v more h; simp [nameLoop] at h
  | succ fuel ih =>
    intro comm inp v more h
    rw [Nat.add_right_comm, nameLoop]
    rw [nameLoop] at h
    cases hl : comm.getLast? with
    | none => simp [hl] at h
    | some last =>
      simp only [hl] at h ⊢
      by_cases hlast : last = ')'
      · rw [if_pos hlast] at h ⊢
        exact h
      · rw [if_neg hlast] at h ⊢
        cases hs : scanStr 20 inp with
        | fail => simp [hs, expect] at h
        | undefined => simp [hs, expect] at h
        | ok temp r1 =>
          simp only [hs, expect] at h ⊢
          split at h
          · cases h
          · rename_i hfit
            rw [if_neg hfit]
            exact ih more h

/-- A record that is parsed successfully is parsed to the same entry when text that
begins with white space is put after it. -/
theorem parse_append (fs fs' : List Char → Option (List Char)) (path pre tail : List Char)
    (e : ProcEntry) (hopen : fs path = some pre) (hopen' : fs' path = some (pre ++ tail))
    (ht : Boundary tail) (h : CreateProcEntryFromFile fs (some path) = .ok e) :
    CreateProcEntryFromFile fs' (some path) = .ok e := by
  obtain ⟨path', inp, r1, comm0, r2, r3, r4, r5, r6, r7, r8, r9, r10, hsf, hfs, hp, hlen,
    h1, h2, h3, h4, h5, h6, h7, h8, h9, h10⟩ := parse_ok_inv h
  simp only [Option.some.injEq] at hsf
  subst hsf
  rw [hopen] at hfs
  simp only [Option.some.injEq] at hfs
  subst hfs
  have e1 := scanInt_append tail h1 ht
  have e2 := scanStr_append tail h2 ht
  have e3 := nameLoop_fuel_mono path _ tail.length (nameLoop_append path _ tail h3 ht)
  have e3' : nameLoop path ((r2 ++ tail).length + 1) comm0 (r2 ++ tail) =
      .ok (e.comm, r3 ++ tail) := by
    rw [← e3]
    congr 1
    simp only [List.length_append]
    omega
  have e4 := scanChar_append tail h4
  have e5 := scanInt_append tail h5 ht
  have e6 := skipInts_append 9 tail h6 ht
  have e7 := scanULong_append tail h7 ht
  have e8 := scanULong_append tail h8 ht
  have e9 := skipInts_append 4 tail h9 ht
  have e10 := scanInt_append tail h10 ht
  simp only [CreateProcEntryFromFile, hopen', bind, Res.bind, expect, e1, e2, e3', e4, e5,
    e6, e7, e8, e9, e10]
  rw [if_neg (by simp only [MAX_STR_SIZE]; omega)]
  cases e
  simp only at hp
  rw [hp]

/-- C14: what follows `threadCount` does not change the result. When a record with
nothing after `threadCount` is parsed to an entry, the two records made of it and of any
two texts put after it, each empty or beginning with white space, are parsed to that
same entry, equal in every field. -/
theorem CreateProcEntryFromFile_ignores_trailing_text
    (fs fs1 fs2 : List Char → Option (List Char)) (path pre tail1 tail2 : List Char)
    (e : ProcEntry) (hopen : fs path = some pre)
    (hpre : CreateProcEntryFromFile fs (some path) = .ok e)
    (hopen1 : fs1 path = some (pre ++ tail1)) (hopen2 : fs2 path = some (pre ++ tail2))
    (ht1 : Boundary tail1) (ht2 : Boundary tail2) :
    CreateProcEntryFromFile fs1 (some path) = .ok e ∧
    CreateProcEntryFromFile fs2 (some path) = .ok e ∧
    CreateProcEntryFromFile fs1 (some path) = CreateProcEntryFromFile fs2 (some path) := by
  have h1 := parse_append fs fs1 path pre tail1 e hopen hopen1 ht1 hpre
  have h2 := parse_append fs fs2 path pre tail2 e hopen hopen2 ht2 hpre
  exact ⟨h1, h2, by rw [h1, h2]⟩

theorem CreateProcEntryFromFile_ignores_trailing_text_witness :
    CreateProcEntryFromFile (fun _ => some (shortLine ++ " 0 99 (x) 7\n".toList))
      (some "/proc/42/stat".toList) = .ok shortEntry ∧
    CreateProcEntryFromFile (fun _ => some (shortLine ++ []))
      (some "/proc/42/stat".toList) = .ok shortEntry ∧
    CreateProcEntryFromFile (fun _ => some (shortLine ++ " 0 99 (x) 7\n".toList))
        (some "/proc/42/stat".toList) =
      CreateProcEntryFromFile (fun _ => some (shortLine ++ []))
        (some "/proc/42/stat".toList) :=
  CreateProcEntryFromFile_ignores_trailing_text (fun _ => some shortLine)
    (fun _ => some (shortLine ++ " 0 99 (x) 7\n".toList)) (fun _ => some (shortLine ++ []))
    "/proc/42/stat".toList shortLine " 0 99 (x) 7\n".toList [] shortEntry rfl (by decide)
    rfl rfl (boundary_cons (by decide)) boundary_nil

/-! ## CommSort: frame, order, normalisation -/

theorem CommSortMem.final_frame (m : CommSortMem) : m.final.f = m.f ∧ m.final.s = m.s := by
  have h1 : ∀ k : CommSortMem, k.shiftSecond.f = k.f ∧ k.shiftSecond.s = k.s := by
    intro k
    unfold CommSortMem.shiftSecond
    split
    · exact ⟨rfl, rfl⟩
    · exact ⟨rfl, rfl⟩
  have h2 : ∀ k : CommSortMem, k.shiftFirst.f = k.f ∧ k.shiftFirst.s = k.s := by
    intro k
    unfold CommSortMem.shiftFirst
    split
    · exact ⟨rfl, rfl⟩
    · exact ⟨rfl, rfl⟩
  unfold CommSortMem.final
  rw [(h1 _).1, (h1 _).2, (h2 _).1, (h2 _).2]
  exact ⟨rfl, rfl⟩

theorem CommSortMem.final_arrays (m : CommSortMem) :
    m.final.str1 = workingCopy m.str1 m.f.comm ∧
    m.final.str2 = workingCopy m.str2 m.s.comm := by
  have h1 : ∀ k : CommSortMem, k.shiftSecond.str1 = k.str1 ∧
      k.shiftSecond.str2 = (if k.str2.getD 1 NUL = '(' then shiftLeft MAX_STR_SIZE k.str2
        else k.str2) := by
    intro k
    by_cases c : k.str2.getD 1 NUL = '('
    · simp only [CommSortMem.shiftSecond, if_pos c, and_self]
    · simp only [CommSortMem.shiftSecond, if_neg c, and_self]
  have h2 : ∀ k : CommSortMem, k.shiftFirst.str2 = k.str2 ∧
      k.shiftFirst.str1 = (if k.str1.getD 1 NUL = '(' then shiftLeft MAX_STR_SIZE k.str1
        else k.str1) := by
    intro k
    by_cases c : k.str1.getD 1 NUL = '('
    · simp only [CommSortMem.shiftFirst, if_pos c, and_self]
    · simp only [CommSortMem.shiftFirst, if_neg c, and_self]
  have h3 : ∀ k : CommSortMem, k.copySecond.str1 = k.str1 ∧
      k.copySecond.str2 = strcpy k.str2 k.s.comm ∧ k.copySecond.f = k.f := by
    intro k
    simp only [CommSortMem.copySecond, and_self]
  have h4 : ∀ k : CommSortMem, k.copyFirst.str2 = k.str2 ∧
      k.copyFirst.str1 = strcpy k.str1 k.f.comm ∧ k.copyFirst.s = k.s := by
    intro k
    simp only [CommSortMem.copyFirst, and_self]
  unfold CommSortMem.final workingCopy
  rw [(h1 _).1, (h1 _).2, (h2 _).1, (h2 _).2, (h3 _).1, (h3 _).2.1, (h4 _).1, (h4 _).2.1,
    (h4 _).2.2]
  exact ⟨rfl, rfl⟩

theorem CommSort_eq_workingCopy (junk1 junk2 : List Char) (f s : ProcEntry) :
    CommSort junk1 junk2 f s =
      strcmp (cstr (workingCopy junk1 f.comm)) (cstr (workingCopy junk2 s.comm)) := rfl

/-- C15: `CommSort` changes neither entry. Run on the memory it works on, with names that
fit their 100-byte storage, it returns the value of `CommSort` and leaves both entries,
their stored `comm` included, as they were; only its two local arrays are written. -/
theorem CommSort_leaves_entries_unchanged (m : CommSortMem)
    (hf : m.f.comm.length ≤ 99) (hs : m.s.comm.length ≤ 99) :
    ∃ m' : CommSortMem,
      CommSortRun m = .ok (CommSort m.str1 m.str2 m.f m.s, m') ∧
      m'.f = m.f ∧ m'.s = m.s ∧ m'.f.comm = m.f.comm ∧ m'.s.comm = m.s.comm := by
  have hfit : ¬ (MAX_STR_SIZE < m.f.comm.length + 1 ∨ MAX_STR_SIZE < m.s.comm.length + 1) := by
    simp only [MAX_STR_SIZE]
    omega
  have hframe := CommSortMem.final_frame m
  have harr := CommSortMem.final_arrays m
  refine ⟨m.final, ?_, hframe.1, hframe.2, by rw [hframe.1], by rw [hframe.2]⟩
  unfold CommSortRun
  rw [if_neg hfit, harr.1, harr.2, CommSort_eq_workingCopy]

theorem CommSort_leaves_entries_unchanged_witness :
    ∃ m' : CommSortMem,
      CommSortRun ⟨entryNamed 3 "((weird))".toList, entryNamed 1 "(bash)".toList,
          List.replicate 100 'x', List.replicate 100 'y'⟩ =
        .ok (CommSort (List.replicate 100 'x') (List.replicate 100 'y')
          (entryNamed 3 "((weird))".toList) (entryNamed 1 "(bash)".toList), m') ∧
      m'.f = entryNamed 3 "((weird))".toList ∧ m'.s = entryNamed 1 "(bash)".toList ∧
      m'.f.comm = "((weird))".toList ∧ m'.s.comm = "(bash)".toList :=
  CommSort_leaves_entries_unchanged
    ⟨entryNamed 3 "((weird))".toList, entryNamed 1 "(bash)".toList,
      List.replicate 100 'x', List.replicate 100 'y'⟩ (by decide) (by decide)

theorem strcmp_self : ∀ a : List Char, strcmp a a = 0
  | [] => rfl
  | a :: as => by simp [strcmp, strcmp_self as]

theorem strcmp_swap : ∀ a b : List Char, strcmp b a = -strcmp a b
  | [], [] => by simp [strcmp]
  | [], b :: bs => by simp [strcmp]
  | a :: as, [] => by simp [strcmp]
  | a :: as, b :: bs => by
    by_cases h : a = b
    · subst h
      simp [strcmp, strcmp_swap as bs]
    · have h' : ¬ b = a := fun e => h e.symm
      simp [strcmp, h, h']

theorem strcmp_le_trans : ∀ a b c : List Char, (∀ x ∈ a, x ≠ NUL) → (∀ x ∈ b, x ≠ NUL) →
    strcmp a b ≤ 0 → strcmp b c ≤ 0 → strcmp a c ≤ 0
  | [], _, [], _, _, _, _ => by simp [strcmp]
  | [], _, c :: cs, _, _, _, _ => by
    simp only [strcmp]
    omega
  | a :: as, [], _, ha, _, h1, _ => by
    have := toNat_pos_of_ne_NUL (ha a (by simp))
    simp only [strcmp] at h1
    omega
  | a :: as, b :: bs, [], _, hb, _, h2 => by
    have := toNat_pos_of_ne_NUL (hb b (by simp))
    simp only [strcmp] at h2
    omega
  | a :: as, b :: bs, c :: cs, ha, hb, h1, h2 => by
    by_cases hab : a = b
    · subst hab
      by_cases hbc : a = c
      · subst hbc
        simp only [strcmp, if_true] at h1 h2 ⊢
        exact strcmp_le_trans as bs cs (fun x hx => ha x (by simp [hx]))
          (fun x hx => hb x (by simp [hx])) h1 h2
      · have e2 : strcmp (a :: bs) (c :: cs) = (a.toNat : Int) - (c.toNat : Int) := by
          simp [strcmp, hbc]
        have e3 : strcmp (a :: as) (c :: cs) = (a.toNat : Int) - (c.toNat : Int) := by
          simp [strcmp, hbc]
        rw [e3]
        rw [e2] at h2
        exact h2
    · have e1 : strcmp (a :: as) (b :: bs) = (a.toNat : Int) - (b.toNat : Int) := by
        simp [strcmp, hab]
      rw [e1] at h1
      have hn := toNat_ne_of_ne hab
      by_cases hbc : b = c
      · subst hbc
        have e3 : strcmp (a :: as) (b :: cs) = (a.toNat : Int) - (b.toNat : Int) := by
          simp [strcmp, hab]
        rw [e3]
        exact h1
      · have e2 : strcmp (b :: bs) (c :: cs) = (b.toNat : Int) - (c.toNat : Int) := by
          simp [strcmp, hbc]
        rw [e2] at h2
        have hac : a ≠ c := by
          intro e
          subst e
          omega
        have e3 : strcmp (a :: as) (c :: cs) = (a.toNat : Int) - (c.toNat : Int) := by
          simp [strcmp, hac]
        rw [e3]
        omega

/-- C17: on entries whose names are C strings of 1 to 99 bytes `CommSort` is usable as a
sort key: an entry compares equal to itself, the sign of `CommSort a b` is the opposite
of the sign of `CommSort b a`, and `CommSort a b ≤ 0` with `CommSort b c ≤ 0` gives
`CommSort a c ≤ 0`. -/
theorem CommSort_total_preorder (junk1 junk2 : List Char) (a b c : ProcEntry)
    (hj1 : junk1.length = 100) (hj2 : junk2.length = 100)
    (ha : a.comm ≠ [] ∧ a.comm.length ≤ 99 ∧ ∀ x ∈ a.comm, x ≠ NUL)
    (hb : b.comm ≠ [] ∧ b.comm.length ≤ 99 ∧ ∀ x ∈ b.comm, x ≠ NUL)
    (hc : c.comm ≠ [] ∧ c.comm.length ≤ 99 ∧ ∀ x ∈ c.comm, x ≠ NUL) :
    CommSort junk1 junk2 a a = 0 ∧
    ((CommSort junk1 junk2 a b < 0 ↔ 0 < CommSort junk1 junk2 b a) ∧
     (CommSort junk1 junk2 a b = 0 ↔ CommSort junk1 junk2 b a = 0) ∧
     (0 < CommSort junk1 junk2 a b ↔ CommSort junk1 junk2 b a < 0)) ∧
    (CommSort junk1 junk2 a b ≤ 0 → CommSort junk1 junk2 b c ≤ 0 →
      CommSort junk1 junk2 a c ≤ 0) := by
  rw [CommSort_eq_strcmp junk1 junk2 a a hj1 hj2 ha ha,
    CommSort_eq_strcmp junk1 junk2 a b hj1 hj2 ha hb,
    CommSort_eq_strcmp junk1 junk2 b a hj1 hj2 hb ha,
    CommSort_eq_strcmp junk1 junk2 b c hj1 hj2 hb hc,
    CommSort_eq_strcmp junk1 junk2 a c hj1 hj2 ha hc]
  have hsw := strcmp_swap (normName a.comm) (normName b.comm)
  refine ⟨strcmp_self _, ⟨?_, ?_, ?_⟩,
    strcmp_le_trans _ _ _ (normName_no_NUL ha.2.2) (normName_no_NUL hb.2.2)⟩
  · rw [hsw]; omega
  · rw [hsw]; omega
  · rw [hsw]; omega

theorem CommSort_total_preorder_witness :
    CommSort (List.replicate 100 'x') (List.replicate 100 'y')
      (entryNamed 2 "(Zsh)".toList) (entryNamed 2 "(Zsh)".toList) = 0 ∧
    ((CommSort (List.replicate 100 'x') (List.replicate 100 'y')
        (entryNamed 2 "(Zsh)".toList) (entryNamed 1 "(bash)".toList) < 0 ↔
      0 < CommSort (List.replicate 100 'x') (List.replicate 100 'y')
        (entryNamed 1 "(bash)".toList) (entryNamed 2 "(Zsh)".toList)) ∧
     (CommSort (List.replicate 100 'x') (List.replicate 100 'y')
        (entryNamed 2 "(Zsh)".toList) (entryNamed 1 "(bash)".toList) = 0 ↔
      CommSort (List.replicate 100 'x') (List.replicate 100 'y')
        (entryNamed 1 "(bash)".toList) (entryNamed 2 "(Zsh)".toList) = 0) ∧
     (0 < CommSort (List.replicate 100 'x') (List.replicate 100 'y')
        (entryNamed 2 "(Zsh)".toList) (entryNamed 1 "(bash)".toList) ↔
      CommSort (List.replicate 100 'x') (List.replicate 100 'y')
        (entryNamed 1 "(bash)".toList) (entryNamed 2 "(Zsh)".toList) < 0)) ∧
    (CommSort (List.replicate 100 'x') (List.replicate 100 'y')
        (entryNamed 2 "(Zsh)".toList) (entryNamed 1 "(bash)".toList) ≤ 0 →
      CommSort (List.replicate 100 'x') (List.replicate 100 'y')
        (entryNamed 1 "(bash)".toList) (entryNamed 3 "((weird))".toList) ≤ 0 →
      CommSort (List.replicate 100 'x') (List.replicate 100 'y')
        (entryNamed 2 "(Zsh)".toList) (entryNamed 3 "((weird))".toList) ≤ 0) :=
  CommSort_total_preorder (List.replicate 100 'x') (List.replicate 100 'y')
    (entryNamed 2 "(Zsh)".toList) (entryNamed 1 "(bash)".toList)
    (entryNamed 3 "((weird))".toList) (by decide) (by decide) (by decide) (by decide)
    (by decide)

/-- C18 (as stated, refuted): the name `a(b)` does not begin with two opening markers,
yet `CommSort` drops its first character: it compares equal to `(b)`, whereas the stored
names compared unchanged differ. -/
theorem CommSort_drops_first_byte_of_any_name :
    CommSort (List.replicate 100 'x') (List.replicate 100 'y')
      (entryNamed 1 "a(b)".toList) (entryNamed 2 "(b)".toList) = 0 ∧
    strcmp "a(b)".toList "(b)".toList ≠ 0 ∧
    "a(b)".toList.head? ≠ some '(' := by
  decide

/-- C18 (amended): whether `CommSort` drops the first character of a name depends on the
second character alone. A name (a C string of 1 to 99 bytes) whose second character is
not `(` is compared as stored; a name whose second character is `(` is compared without
its first character, whatever that character is. -/
theorem CommSort_normalises_on_second_byte (junk1 junk2 : List Char) (a b : ProcEntry)
    (hj1 : junk1.length = 100) (hj2 : junk2.length = 100)
    (ha : a.comm ≠ [] ∧ a.comm.length ≤ 99 ∧ ∀ x ∈ a.comm, x ≠ NUL)
    (hb : b.comm ≠ [] ∧ b.comm.length ≤ 99 ∧ ∀ x ∈ b.comm, x ≠ NUL) :
    (a.comm.get? 1 ≠ some '(' → b.comm.get? 1 ≠ some '(' →
      CommSort junk1 junk2 a b = strcmp a.comm b.comm) ∧
    (a.comm.get? 1 ≠ some '(' →
      CommSort junk1 junk2 a b = strcmp a.comm (normName b.comm)) ∧
    (b.comm.get? 1 ≠ some '(' →
      CommSort junk1 junk2 a b = strcmp (normName a.comm) b.comm) ∧
    (a.comm.get? 1 = some '(' →
      CommSort junk1 junk2 a b = strcmp (a.comm.drop 1) (normName b.comm)) ∧
    (b.comm.get? 1 = some '(' →
      CommSort junk1 junk2 a b = strcmp (normName a.comm) (b.comm.drop 1)) := by
  rw [CommSort_eq_strcmp junk1 junk2 a b hj1 hj2 ha hb]
  refine ⟨?_, ?_, ?_, ?_, ?_⟩
  · intro h1 h2
    simp only [normName, if_neg h1, if_neg h2]
  · intro h1
    simp only [normName, if_neg h1]
  · intro h2
    simp only [normName, if_neg h2]
  · intro h1
    simp only [normName, if_pos h1]
  · intro h2
    simp only [normName, if_pos h2]

theorem CommSort_normalises_on_second_byte_witness :
    CommSort (List.replicate 100 'x') (List.replicate 100 'y')
      (entryNamed 1 "(bash)".toList) (entryNamed 2 "a(b)".toList) =
        strcmp "(bash)".toList (normName "a(b)".toList) ∧
    CommSort (List.replicate 100 'x') (List.replicate 100 'y')
      (entryNamed 1 "(bash)".toList) (entryNamed 2 "a(b)".toList) =
        strcmp (normName "(bash)".toList) ("a(b)".toList.drop 1) :=
  have h := CommSort_normalises_on_second_byte (List.replicate 100 'x')
    (List.replicate 100 'y') (entryNamed 1 "(bash)".toList) (entryNamed 2 "a(b)".toList)
    (by decide) (by decide) (by decide) (by decide)
  ⟨h.2.1 (by decide), h.2.2.2.2 (by decide)⟩

end MyPs
